import Mathlib

/-! KV cache metadata engine (`cache/cache.go`)

A shallow embedding of the `Simple` cache of `cache/cache.go`: the cell table,
the per-sequence next-position map, the slot allocator (`findStartPos`), the
step entry point (`StartForward`), the mask builder (`buildMask`) and the
sequence mutators (`Copy`, `Remove`).

Modelling conventions.

* Go `int` is the 64-bit signed integer.  Values that carry sequence ids,
  logical positions, next positions, `size` and `Capacity` are `Int`, and every
  addition and subtraction the code performs on them is followed by `wrap`, the
  reduction to `[-2^63, 2^63)` with which Go's `+`, `-`, `++`, `+=` and `-=`
  overflow.  Comparisons and `min` need no reduction.
* The fields `curPos`, `curBatchSize` and `maxCell` only ever receive slice
  lengths and loop indices (`len(seqs)`, `i + 1`, `c.curPos + i`), so they are
  `Nat`; arithmetic on slice indices (`c.curPos+i`, `i*c.maxCell+j`) is on `Nat`,
  its operands being lengths and indices of slices held in memory.
* A Go `map[int]int` is a finite association list; reading an absent key gives
  the zero value `0`, writing an absent key adds it.
* A function with a pointer receiver becomes a function from the state before
  to the state after (together with the returned values).
* A Go `panic` (explicit, or an index out of range) is the `Run.panic` outcome.
* `findSeq` returns a pointer into the cell's slice; the pointer is modelled by
  the index of the element together with the element's current value.
* The tensor backend (`ml.Context`) is outside the cache: `FromFloatSlice` is
  taken to return the flat mask data it was given, with a nil error.  The
  per-layer key/value storage (`Sub`, `Put`, `Close`) is not modelled.
-/

namespace Cache

/-! ## Data model -/

/-- One `(sequence id, logical position)` association (`type seqCell struct`). -/
structure seqCell where
  seq : Int
  pos : Int
deriving DecidableEq, Repr

/-- One slot of the cell table (`type cacheCell struct`). -/
structure cacheCell where
  sequences : List seqCell
deriving DecidableEq, Repr

/-- A mask entry: `0` (visible) or `float32(math.Inf(-1))` (masked). -/
inductive MaskVal where
  | zero
  | negInf
deriving DecidableEq, Repr

/-- Go's 64-bit two's-complement reduction: the value an `int` holds after an
operation whose exact result is `x`. -/
def wrap (x : Int) : Int :=
  (x + 9223372036854775808) % 18446744073709551616 - 9223372036854775808

/-- The `map[int]int` from sequence id to next position, as an association list. -/
def SeqMap : Type := List (Int × Int)

instance : DecidableEq SeqMap := inferInstanceAs (DecidableEq (List (Int × Int)))

instance : Repr SeqMap := inferInstanceAs (Repr (List (Int × Int)))

/-- The map `make(map[int]int)`. -/
def SeqMap.empty : SeqMap := ([] : List (Int × Int))

/-- Map read `m[s]`: the stored value, or `0` when `s` is absent. -/
def SeqMap.get : List (Int × Int) → Int → Int
  | [], _ => 0
  | (k, v) :: m, s => if k = s then v else SeqMap.get m s

/-- Map write `m[s] = v`. -/
def SeqMap.set : List (Int × Int) → Int → Int → List (Int × Int)
  | [], s, v => [(s, v)]
  | (k, w) :: m, s, v => if k = s then (k, v) :: m else (k, w) :: SeqMap.set m s v

/-- The metadata part of `type Simple struct`. -/
structure Simple where
  Capacity : Int
  curPos : Nat
  curBatchSize : Nat
  curMask : List MaskVal
  size : Int
  cells : List cacheCell
  maxCell : Nat
  seqNextPos : SeqMap
deriving DecidableEq, Repr

/-- The returned errors: `fmt.Errorf("%w (length: %v)", ErrKvCacheFull, c.Capacity)`. -/
inductive Err where
  | kvCacheFull (length : Int)
deriving DecidableEq, Repr

/-- The ways the code aborts instead of returning. -/
inductive Abort where
  | defragNotImplemented
  | shiftNotImplemented
  | indexOutOfRange
  | negativeLen
deriving DecidableEq, Repr

/-- Outcome of a call: it returns a value, or the goroutine panics. -/
inductive Run (α : Type) where
  | ret (a : α)
  | panic (why : Abort)
deriving DecidableEq, Repr

/-- The test `errors.Is(err, ErrKvCacheFull)`. -/
def isKvCacheFull : Option Err → Bool
  | some (Err.kvCacheFull _) => true
  | none => false

/-! ## `findSeq` -/

/-- The loop of `findSeq`, at slice index `i`. -/
def findSeqFrom (seq : Int) : List seqCell → Nat → Option (Nat × seqCell)
  | [], _ => none
  | s :: rest, i => if s.seq = seq then some (i, s) else findSeqFrom seq rest (i + 1)

/-- `func (cell cacheCell) findSeq(seq int) *seqCell`: the first association of
`seq` in the cell (its index and value), or `none` for the nil pointer. -/
def cacheCell.findSeq (cell : cacheCell) (seq : Int) : Option (Nat × seqCell) :=
  findSeqFrom seq cell.sequences 0

/-! ## `NewSimpleCache` -/

/-- `func NewSimpleCache(backend, capacity, dtype)`: `make([]cacheCell, capacity)`
panics ("len out of range") for a negative capacity; a capacity of `2^63` or more
is not an `int` and no slice has that length, so it gets the same outcome. -/
def NewSimpleCache (capacity : Int) : Run Simple :=
  if capacity < 0 ∨ capacity ≥ 9223372036854775808 then Run.panic Abort.negativeLen
  else Run.ret
    { Capacity := capacity
      curPos := 0
      curBatchSize := 0
      curMask := []
      size := 0
      cells := List.replicate capacity.toNat { sequences := [] }
      maxCell := 0
      seqNextPos := SeqMap.empty }

/-! ## `findStartPos` -/

/-- The `for i := range c.cells` loop of `findStartPos`, at index `i` with the
locals `start` and `count`; `none` when the loop falls through. -/
def findStartPosLoop (batch : Nat) : List cacheCell → Nat → Nat → Nat → Option Nat
  | [], _, _, _ => none
  | cell :: rest, i, start, count =>
    if cell.sequences.length = 0 then
      if count + 1 ≥ batch then some start
      else findStartPosLoop batch rest (i + 1) start (count + 1)
    else findStartPosLoop batch rest (i + 1) (i + 1) 0

/-- `func (c *Simple) findStartPos() (int, error)`. -/
def findStartPos (c : Simple) : Nat × Option Err :=
  match findStartPosLoop c.curBatchSize c.cells 0 0 0 with
  | some start => (start, none)
  | none => (0, some (Err.kvCacheFull c.Capacity))

/-- Cells `[start, start + n)` lie inside the table and are all free. -/
def FreeRun (cells : List cacheCell) (start n : Nat) : Prop :=
  start + n ≤ cells.length ∧
    ∀ k, k < n → (cells[start + k]?).map cacheCell.sequences = some []

instance (cells : List cacheCell) (start n : Nat) : Decidable (FreeRun cells start n) := by
  unfold FreeRun; infer_instance

/-! ## `StartForward` -/

/-- The body of the loop `for i, seq := range seqs` of `StartForward` (lines
108-113): write the cell, raise `maxCell`, advance the next position and `size`. -/
def assignCell (c : Simple) (i : Nat) (seq : Int) : Simple :=
  let c1 := { c with
    cells := c.cells.set (c.curPos + i)
      { sequences := [{ seq := seq, pos := SeqMap.get c.seqNextPos seq }] } }
  let c2 := if c1.curPos + i > c1.maxCell then { c1 with maxCell := c1.curPos + i } else c1
  let c3 := { c2 with
    seqNextPos := SeqMap.set c2.seqNextPos seq (wrap (SeqMap.get c2.seqNextPos seq + 1)) }
  { c3 with size := wrap (c3.size + 1) }

/-- The loop `for i, seq := range seqs` of `StartForward` from batch index `i`
on.  The slice write `c.cells[c.curPos+i]` panics when the index is out of
range. -/
def assignLoop : List Int → Nat → Simple → Run Simple
  | [], _, c => Run.ret c
  | seq :: rest, i, c =>
    if c.curPos + i < c.cells.length then assignLoop rest (i + 1) (assignCell c i seq)
    else Run.panic Abort.indexOutOfRange

/-- The test `cellSeq == nil || cellSeq.pos > origSeq[seqs[i]]+i` of `buildMask`
(line 147), for `cell = c.cells[j]` and `seq = seqs[i]`. -/
def isMasked (origSeq : SeqMap) (i : Nat) (cell : cacheCell) (seq : Int) : Bool :=
  match cell.findSeq seq with
  | none => true
  | some (_, cellSeq) => decide (cellSeq.pos > wrap (SeqMap.get origSeq seq + (i : Int)))

/-- The inner loop `for j := range c.maxCell` of `buildMask` for batch column
`i`, with `todo` iterations left, at row `j`.  Reading `c.cells[j]` or `seqs[i]`
out of range panics. -/
def maskInner (c : Simple) (origSeq : SeqMap) (seqs : List Int) (i : Nat) :
    Nat → Nat → List MaskVal → Run (List MaskVal)
  | 0, _, mask => Run.ret mask
  | todo + 1, j, mask =>
    match c.cells[j]?, seqs[i]? with
    | some cell, some seq =>
      maskInner c origSeq seqs i todo (j + 1)
        (if isMasked origSeq i cell seq = true then mask.set (i * c.maxCell + j) MaskVal.negInf
         else mask)
    | _, _ => Run.panic Abort.indexOutOfRange

/-- The outer loop `for i := range c.curBatchSize` of `buildMask`, with `todo`
iterations left, at column `i`. -/
def maskOuter (c : Simple) (origSeq : SeqMap) (seqs : List Int) :
    Nat → Nat → List MaskVal → Run (List MaskVal)
  | 0, _, mask => Run.ret mask
  | todo + 1, i, mask =>
    match maskInner c origSeq seqs i c.maxCell 0 mask with
    | Run.ret mask1 => maskOuter c origSeq seqs todo (i + 1) mask1
    | Run.panic why => Run.panic why

/-- `func (c *Simple) buildMask(ctx, origSeq, seqs)`: the flat mask data handed to
`ctx.FromFloatSlice(mask, c.maxCell, c.curBatchSize)`. -/
def buildMask (c : Simple) (origSeq : SeqMap) (seqs : List Int) : Run (List MaskVal) :=
  maskOuter c origSeq seqs c.curBatchSize 0
    (List.replicate (c.curBatchSize * c.maxCell) MaskVal.zero)

/-- `func (c *Simple) defrag()`. -/
def defrag (_c : Simple) : Run Simple :=
  Run.panic Abort.defragNotImplemented

/-- Lines 97-118 of `StartForward`: return the allocation error, or snapshot the
next positions, write the batch and build the mask. -/
def finishForward (c : Simple) (err : Option Err) (seqs : List Int) : Run (Simple × Option Err) :=
  match err with
  | some e => Run.ret (c, some e)
  | none =>
    let origSeq := c.seqNextPos
    match assignLoop seqs 0 c with
    | Run.panic why => Run.panic why
    | Run.ret c1 =>
      match buildMask c1 origSeq seqs with
      | Run.panic why => Run.panic why
      | Run.ret mask => Run.ret ({ c1 with curMask := mask }, none)

/-- `func (c *Simple) StartForward(ctx, seqs []int) error`: the state after the
call and the returned error. -/
def StartForward (c : Simple) (seqs : List Int) : Run (Simple × Option Err) :=
  let c0 := { c with curBatchSize := seqs.length }
  let r := findStartPos c0
  let c1 := { c0 with curPos := r.1 }
  if isKvCacheFull r.2 = true ∧ wrap (c1.size + (c1.curBatchSize : Int)) ≤ c1.Capacity then
    match defrag c1 with
    | Run.panic why => Run.panic why
    | Run.ret c2 =>
      let r2 := findStartPos c2
      finishForward { c2 with curPos := r2.1 } r2.2 seqs
  else finishForward c1 r.2 seqs

/-! ## `Copy`, `Shift`, `Remove` -/

/-- First half of the loop body of `Copy` (lines 204-207): a cell holding
`srcSeq` at a position in `[beginIndex, endIndex)` gets `(dstSeq, pos)` appended. -/
def copyAppend (srcSeq dstSeq beginIndex endIndex : Int) (cell : cacheCell) : cacheCell :=
  match cell.findSeq srcSeq with
  | some (_, srcCellSeq) =>
    if srcCellSeq.pos ≥ beginIndex ∧ srcCellSeq.pos < endIndex then
      { sequences := cell.sequences ++ [{ seq := dstSeq, pos := srcCellSeq.pos }] }
    else cell
  | none => cell

/-- Second half of the loop body of `Copy` (lines 209-212): the association of
`dstSeq` found in the cell is moved forward by `offset` when its position is
`≥ endIndex`. -/
def copyShift (dstSeq endIndex offset : Int) (cell : cacheCell) : cacheCell :=
  match cell.findSeq dstSeq with
  | some (k, dstCellSeq) =>
    if dstCellSeq.pos ≥ endIndex then
      { sequences :=
          cell.sequences.set k { dstCellSeq with pos := wrap (dstCellSeq.pos + offset) } }
    else cell
  | none => cell

/-- The body of the loop of `Copy` for one cell. -/
def copyCell (srcSeq dstSeq beginIndex endIndex offset : Int) (cell : cacheCell) : cacheCell :=
  copyShift dstSeq endIndex offset (copyAppend srcSeq dstSeq beginIndex endIndex cell)

/-- `func (c *Simple) Copy(srcSeq, dstSeq int, beginIndex, endIndex int)`. -/
def Copy (c : Simple) (srcSeq dstSeq beginIndex endIndex : Int) : Simple :=
  let endIndex := min endIndex (SeqMap.get c.seqNextPos srcSeq)
  let offset := wrap (endIndex - beginIndex)
  { c with
    cells := c.cells.map (copyCell srcSeq dstSeq beginIndex endIndex offset)
    seqNextPos :=
      SeqMap.set c.seqNextPos dstSeq (wrap (SeqMap.get c.seqNextPos dstSeq + offset)) }

/-- `func (c *Simple) Shift(seq int, beginIndex, endIndex, offset int)`. -/
def Shift (_c : Simple) (_seq _beginIndex _endIndex _offset : Int) : Run Simple :=
  Run.panic Abort.shiftNotImplemented

/-- The body of the loop of `Remove` for one cell; `slices.DeleteFunc` keeps, in
order, the elements on which the predicate is false. -/
def removeCell (seq beginIndex endIndex offset : Int) (cell : cacheCell) : cacheCell :=
  match cell.findSeq seq with
  | some (k, cellSeq) =>
    if cellSeq.pos ≥ beginIndex ∧ cellSeq.pos < endIndex then
      { sequences := cell.sequences.filter (fun s => !decide (s.seq = seq)) }
    else if cellSeq.pos ≥ endIndex then
      { sequences := cell.sequences.set k { cellSeq with pos := wrap (cellSeq.pos - offset) } }
    else cell
  | none => cell

/-- `func (c *Simple) Remove(seq int, beginIndex, endIndex int) error`: the state
after the call and the returned error. -/
def Remove (c : Simple) (seq beginIndex endIndex : Int) : Simple × Option Err :=
  let endIndex := min endIndex (SeqMap.get c.seqNextPos seq)
  let offset := wrap (endIndex - beginIndex)
  ({ c with
      cells := c.cells.map (removeCell seq beginIndex endIndex offset)
      seqNextPos := SeqMap.set c.seqNextPos seq (wrap (SeqMap.get c.seqNextPos seq - offset))
      size := wrap (c.size - offset) }, none)

/-! ## Traces of calls -/

/-- A call made on the cache between steps, or a step. -/
inductive Op where
  | startForward (seqs : List Int)
  | copy (srcSeq dstSeq beginIndex endIndex : Int)
  | remove (seq beginIndex endIndex : Int)
deriving DecidableEq, Repr

/-- The state after a call that returns.  A `StartForward` that returns an error
has still written `curBatchSize` and `curPos`; one that panics ends the trace. -/
def applyOp (c : Simple) : Op → Option Simple
  | Op.startForward seqs =>
    match StartForward c seqs with
    | Run.ret (c1, _) => some c1
    | Run.panic _ => none
  | Op.copy srcSeq dstSeq beginIndex endIndex => some (Copy c srcSeq dstSeq beginIndex endIndex)
  | Op.remove seq beginIndex endIndex => some (Remove c seq beginIndex endIndex).1

/-- The states reachable from a fresh cache by calls admitted by `adm`: every
`Copy` and `Remove`, and every `StartForward` that returns, with a nil error or
with the capacity-exhausted error. -/
inductive Reach (adm : Simple → Op → Prop) : Simple → Prop where
  | fresh (capacity : Int) (c : Simple) : NewSimpleCache capacity = Run.ret c → Reach adm c
  | step (c : Simple) (op : Op) (c1 : Simple) :
      Reach adm c → adm c op → applyOp c op = some c1 → Reach adm c1

/-- At most one association per sequence id in every cell. -/
def CellInv (c : Simple) : Prop :=
  ∀ cell ∈ c.cells, (cell.sequences.map seqCell.seq).Nodup

instance (c : Simple) : Decidable (CellInv c) := by
  unfold CellInv; infer_instance

/-- The number of live `(sequence, position)` associations, summed over all cells. -/
def liveAssociations (c : Simple) : Nat :=
  (c.cells.map (fun cell => cell.sequences.length)).sum

/-- The positions held for `seq` across the cell table, in table order. -/
def positionsOf (seq : Int) : List cacheCell → List Int
  | [] => []
  | cell :: rest =>
    (cell.sequences.filter (fun s => decide (s.seq = seq))).map seqCell.pos
      ++ positionsOf seq rest

/-- Every call is admitted. -/
def anyCall (_c : Simple) (_op : Op) : Prop := True

/-- Every call is admitted, the batches of `StartForward` having pairwise
distinct ids. -/
def distinctBatches (_c : Simple) : Op → Prop
  | Op.startForward seqs => seqs.Nodup
  | Op.copy _ _ _ _ => True
  | Op.remove _ _ _ => True

/-- No cell that holds `srcSeq` at a position of the copied range
`[beginIndex, min(endIndex, seqNextPos[srcSeq]))` already holds `dstSeq`. -/
def copyGuard (c : Simple) (srcSeq dstSeq beginIndex endIndex : Int) : Prop :=
  ∀ cell ∈ c.cells, ∀ s ∈ cell.sequences, s.seq = srcSeq → beginIndex ≤ s.pos →
    s.pos < min endIndex (SeqMap.get c.seqNextPos srcSeq) →
    ∀ t ∈ cell.sequences, t.seq ≠ dstSeq

instance (c : Simple) (srcSeq dstSeq beginIndex endIndex : Int) :
    Decidable (copyGuard c srcSeq dstSeq beginIndex endIndex) := by
  unfold copyGuard; infer_instance

/-- Batches with pairwise distinct ids, any `Remove`, and `Copy` only under
`copyGuard`. -/
def guardedCalls (c : Simple) : Op → Prop
  | Op.startForward seqs => seqs.Nodup
  | Op.copy srcSeq dstSeq beginIndex endIndex => copyGuard c srcSeq dstSeq beginIndex endIndex
  | Op.remove _ _ _ => True

/-- Any `StartForward`, no `Copy`, and `Remove(seq, begin, end)` only with
`0 ≤ begin ≤ min(end, seqNextPos[seq])`. -/
def stepsAndTrims (c : Simple) : Op → Prop
  | Op.startForward _ => True
  | Op.copy _ _ _ _ => False
  | Op.remove seq beginIndex endIndex =>
    0 ≤ beginIndex ∧ beginIndex ≤ min endIndex (SeqMap.get c.seqNextPos seq)

/-- The bookkeeping invariant of a cache used without `Copy`: every cell holds at
most one association, next positions are non-negative, the positions held for
each sequence are exactly `0, …, seqNextPos - 1`, each once, and `size` counts the
live associations. -/
def Contiguous (c : Simple) : Prop :=
  (∀ cell ∈ c.cells, cell.sequences.length ≤ 1) ∧
  (∀ s, 0 ≤ SeqMap.get c.seqNextPos s) ∧
  (∀ s, (positionsOf s c.cells).Nodup ∧
    ∀ p, p ∈ positionsOf s c.cells ↔ (0 ≤ p ∧ p < SeqMap.get c.seqNextPos s)) ∧
  c.size = (liveAssociations c : Int)

/-- Any `StartForward`; `Copy` and `Remove` with `0 ≤ begin ≤ end`. -/
def orderedRanges (_c : Simple) : Op → Prop
  | Op.startForward _ => True
  | Op.copy _ _ beginIndex endIndex => 0 ≤ beginIndex ∧ beginIndex ≤ endIndex
  | Op.remove _ beginIndex endIndex => 0 ≤ beginIndex ∧ beginIndex ≤ endIndex

/-- Calls that overflow no next position: `StartForward(seqs)` when every id of
the batch, occurring `k` times in it, has `seqNextPos + k ≤ MaxInt64`;
`Remove` with `0 ≤ begin ≤ end`, `begin` an `int` (`≤ MaxInt64`);
`Copy(src, dst, begin, end)` with `0 ≤ begin ≤ e'` and
`seqNextPos[dst] + (e' - begin) ≤ MaxInt64`, where
`e' = min(end, seqNextPos[src])`. -/
def clampedRanges (c : Simple) : Op → Prop
  | Op.startForward seqs =>
    ∀ s ∈ seqs, SeqMap.get c.seqNextPos s + (seqs.count s : Int) ≤ 9223372036854775807
  | Op.copy srcSeq dstSeq beginIndex endIndex =>
    0 ≤ beginIndex ∧ beginIndex ≤ min endIndex (SeqMap.get c.seqNextPos srcSeq) ∧
    SeqMap.get c.seqNextPos dstSeq + (min endIndex (SeqMap.get c.seqNextPos srcSeq) - beginIndex)
      ≤ 9223372036854775807
  | Op.remove _ beginIndex endIndex =>
    0 ≤ beginIndex ∧ beginIndex ≤ endIndex ∧ beginIndex ≤ 9223372036854775807

/-- `StartForward` with pairwise distinct ids, no `Copy`, and
`Remove(seq, begin, end)` only with `0 ≤ begin ≤ min(end, seqNextPos[seq])`. -/
def distinctStepsAndTrims (c : Simple) : Op → Prop
  | Op.startForward seqs => seqs.Nodup
  | Op.copy _ _ _ _ => False
  | Op.remove seq beginIndex endIndex =>
    0 ≤ beginIndex ∧ beginIndex ≤ min endIndex (SeqMap.get c.seqNextPos seq)

/-- The number of cells that hold at least one association. -/
def occupiedCells (c : Simple) : Nat :=
  (c.cells.filter (fun cell => decide (cell.sequences ≠ []))).length

/-- The sum of the next positions over all entries of the map. -/
def SeqMap.total (m : List (Int × Int)) : Int :=
  (m.map Prod.snd).sum

/-- The shape of the table of a cache made by `NewSimpleCache`: `Capacity` cells,
and `maxCell` an index of the table (or 0). -/
def TableShape (c : Simple) : Prop :=
  0 ≤ c.Capacity ∧ c.cells.length = c.Capacity.toNat ∧
    (c.maxCell = 0 ∨ c.maxCell < c.cells.length)

/-- The value of an `int` after `k` increments `++`. -/
def advance (v : Int) (k : Nat) : Int :=
  if k = 0 then v else wrap (v + (k : Int))

/-- What the loop body of `Remove` does to the position `p` of an association of
the removed sequence: dropped inside `[beginIndex, endIndex)`, moved back by
`offset` at or after `endIndex`, kept otherwise. -/
def trimPos (beginIndex endIndex offset : Int) (p : Int) : Option Int :=
  if p ≥ beginIndex ∧ p < endIndex then none
  else if p ≥ endIndex then some (wrap (p - offset))
  else some p

/-! ## States of the end-to-end scenario -/

/-- A fresh cache of capacity 4. -/
def fresh4 : Simple :=
  { Capacity := 4, curPos := 0, curBatchSize := 0, curMask := [], size := 0,
    cells := [{ sequences := [] }, { sequences := [] }, { sequences := [] }, { sequences := [] }],
    maxCell := 0, seqNextPos := SeqMap.empty }

/-- The capacity-4 cache after one `StartForward([1, 2])`. -/
def oneStep4 : Simple :=
  { Capacity := 4, curPos := 0, curBatchSize := 2,
    curMask := [MaskVal.zero, MaskVal.negInf], size := 2,
    cells := [{ sequences := [{ seq := 1, pos := 0 }] }, { sequences := [{ seq := 2, pos := 0 }] },
      { sequences := [] }, { sequences := [] }],
    maxCell := 1, seqNextPos := [(1, 1), (2, 1)] }

/-- The capacity-4 cache after two `StartForward([1, 2])`. -/
def twoSteps4 : Simple :=
  { Capacity := 4, curPos := 2, curBatchSize := 2,
    curMask := [MaskVal.zero, MaskVal.negInf, MaskVal.zero,
      MaskVal.negInf, MaskVal.zero, MaskVal.negInf],
    size := 4,
    cells := [{ sequences := [{ seq := 1, pos := 0 }] }, { sequences := [{ seq := 2, pos := 0 }] },
      { sequences := [{ seq := 1, pos := 1 }] }, { sequences := [{ seq := 2, pos := 1 }] }],
    maxCell := 3, seqNextPos := [(1, 2), (2, 2)] }

/-- The two-step state after `Copy(1, 3, 0, 2)`. -/
def forked4 : Simple :=
  { Capacity := 4, curPos := 2, curBatchSize := 2,
    curMask := [MaskVal.zero, MaskVal.negInf, MaskVal.zero,
      MaskVal.negInf, MaskVal.zero, MaskVal.negInf],
    size := 4,
    cells := [{ sequences := [{ seq := 1, pos := 0 }, { seq := 3, pos := 0 }] },
      { sequences := [{ seq := 2, pos := 0 }] },
      { sequences := [{ seq := 1, pos := 1 }, { seq := 3, pos := 1 }] },
      { sequences := [{ seq := 2, pos := 1 }] }],
    maxCell := 3, seqNextPos := [(1, 2), (2, 2), (3, 2)] }

/-- The two-step state after `Remove(1, 0, 1)`: cell 0 is free again. -/
def trimmed4 : Simple :=
  { Capacity := 4, curPos := 2, curBatchSize := 2,
    curMask := [MaskVal.zero, MaskVal.negInf, MaskVal.zero,
      MaskVal.negInf, MaskVal.zero, MaskVal.negInf],
    size := 3,
    cells := [{ sequences := [] }, { sequences := [{ seq := 2, pos := 0 }] },
      { sequences := [{ seq := 1, pos := 0 }] }, { sequences := [{ seq := 2, pos := 1 }] }],
    maxCell := 3, seqNextPos := [(1, 1), (2, 2)] }

/-- The state `trimmed4` after `StartForward([1])`: cell 0 is used again. -/
def reused4 : Simple :=
  { Capacity := 4, curPos := 0, curBatchSize := 1,
    curMask := [MaskVal.zero, MaskVal.negInf, MaskVal.zero],
    size := 4,
    cells := [{ sequences := [{ seq := 1, pos := 1 }] }, { sequences := [{ seq := 2, pos := 0 }] },
      { sequences := [{ seq := 1, pos := 0 }] }, { sequences := [{ seq := 2, pos := 1 }] }],
    maxCell := 3, seqNextPos := [(1, 2), (2, 2)] }

/-- The two-step state after `Remove(1, 0, 2)`: cells 0 and 2 are free, two free
cells that are not adjacent. -/
def fragmented4 : Simple :=
  { Capacity := 4, curPos := 2, curBatchSize := 2,
    curMask := [MaskVal.zero, MaskVal.negInf, MaskVal.zero,
      MaskVal.negInf, MaskVal.zero, MaskVal.negInf],
    size := 2,
    cells := [{ sequences := [] }, { sequences := [{ seq := 2, pos := 0 }] },
      { sequences := [] }, { sequences := [{ seq := 2, pos := 1 }] }],
    maxCell := 3, seqNextPos := [(1, 0), (2, 2)] }

/-- The two-step state after `Remove(5, MaxInt64 - 5, 0)`: the table is still
full and `size` is `MaxInt64 - 1`. -/
def brimful4 : Simple :=
  { Capacity := 4, curPos := 2, curBatchSize := 2,
    curMask := [MaskVal.zero, MaskVal.negInf, MaskVal.zero,
      MaskVal.negInf, MaskVal.zero, MaskVal.negInf],
    size := 9223372036854775806,
    cells := [{ sequences := [{ seq := 1, pos := 0 }] }, { sequences := [{ seq := 2, pos := 0 }] },
      { sequences := [{ seq := 1, pos := 1 }] }, { sequences := [{ seq := 2, pos := 1 }] }],
    maxCell := 3, seqNextPos := [(1, 2), (2, 2), (5, 9223372036854775802)] }

/-- The fresh capacity-4 cache after `Remove(2, MaxInt64, MaxInt64)`. -/
def maxed4 : Simple :=
  { Capacity := 4, curPos := 0, curBatchSize := 0, curMask := [],
    size := 9223372036854775807,
    cells := [{ sequences := [] }, { sequences := [] }, { sequences := [] }, { sequences := [] }],
    maxCell := 0, seqNextPos := [(2, 9223372036854775807)] }

/-- The state `maxed4` after `StartForward([2])`. -/
def overflowed4 : Simple :=
  { Capacity := 4, curPos := 0, curBatchSize := 1, curMask := [],
    size := -9223372036854775808,
    cells := [{ sequences := [{ seq := 2, pos := 9223372036854775807 }] },
      { sequences := [] }, { sequences := [] }, { sequences := [] }],
    maxCell := 0, seqNextPos := [(2, -9223372036854775808)] }

/-- The emptied two-step table after `Copy(1, 9, MinInt64 + 1, 0)`: the next
position of sequence 9 is `MaxInt64`. -/
def primed4 : Simple :=
  { Capacity := 4, curPos := 2, curBatchSize := 2,
    curMask := [MaskVal.zero, MaskVal.negInf, MaskVal.zero,
      MaskVal.negInf, MaskVal.zero, MaskVal.negInf],
    size := 0,
    cells := [{ sequences := [] }, { sequences := [] }, { sequences := [] }, { sequences := [] }],
    maxCell := 3, seqNextPos := [(1, 0), (2, 0), (9, 9223372036854775807)] }

/-- The state `primed4` after `StartForward([1, 9])`. -/
def masked4 : Simple :=
  { Capacity := 4, curPos := 0, curBatchSize := 2,
    curMask := [MaskVal.zero, MaskVal.negInf, MaskVal.negInf,
      MaskVal.negInf, MaskVal.negInf, MaskVal.negInf],
    size := 2,
    cells := [{ sequences := [{ seq := 1, pos := 0 }] },
      { sequences := [{ seq := 9, pos := 9223372036854775807 }] },
      { sequences := [] }, { sequences := [] }],
    maxCell := 3, seqNextPos := [(1, 1), (2, 0), (9, -9223372036854775808)] }

/-! ## Allocator -/

theorem findStartPosLoop_spec (batch n : Nat) (hn : n = max batch 1) :
    ∀ (rest pre : List cacheCell) (start count : Nat),
      start + count = pre.length → count < n →
      (∀ k, k < count → ((pre ++ rest)[start + k]?).map cacheCell.sequences = some []) →
      (∀ s, s < start → ¬ FreeRun (pre ++ rest) s n) →
      match findStartPosLoop batch rest pre.length start count with
      | some r => FreeRun (pre ++ rest) r n ∧ ∀ s, s < r → ¬ FreeRun (pre ++ rest) s n
      | none => ∀ s, ¬ FreeRun (pre ++ rest) s n := by
  intro rest
  induction rest with
  | nil =>
    intro pre start count hlen hcnt _ hlow
    simp only [findStartPosLoop]
    intro s hs
    by_cases h : s < start
    · exact hlow s h hs
    · have := hs.1
      simp at this
      omega
  | cons cell rest ih =>
    intro pre start count hlen hcnt hfree hlow
    have happ : pre ++ cell :: rest = (pre ++ [cell]) ++ rest := by simp
    have hidx : (pre ++ cell :: rest)[pre.length]? = some cell := by
      rw [List.getElem?_append_right (le_refl _)]; simp
    unfold findStartPosLoop
    by_cases hc : cell.sequences.length = 0
    · rw [if_pos hc]
      by_cases hb : count + 1 ≥ batch
      · rw [if_pos hb]
        have hn1 : n = count + 1 := by omega
        refine ⟨⟨?_, ?_⟩, hlow⟩
        · simp; omega
        · intro k hk
          by_cases hk' : k < count
          · exact hfree k hk'
          · have : start + k = pre.length := by omega
            rw [this, hidx]
            simpa using hc
      · rw [if_neg hb]
        have := ih (pre ++ [cell]) start (count + 1) (by simp; omega) (by omega)
          (by
            intro k hk
            rw [← happ]
            by_cases hk' : k < count
            · exact hfree k hk'
            · have : start + k = pre.length := by omega
              rw [this, hidx]
              simpa using hc)
          (by rw [← happ]; exact hlow)
        simpa using this
    · rw [if_neg hc]
      have := ih (pre ++ [cell]) (pre.length + 1) 0 (by simp) (by omega)
        (by intro k hk; omega)
        (by
          rw [← happ]
          intro s hs hrun
          by_cases h : s < start
          · exact hlow s h hrun
          · have h2 := hrun.2 (pre.length - s) (by omega)
            have : s + (pre.length - s) = pre.length := by omega
            rw [this, hidx] at h2
            simp at h2
            exact hc (by simp [h2]))
      simpa using this

theorem findStartPos_run (c : Simple) :
    (∀ start, findStartPos c = (start, none) ↔
        (FreeRun c.cells start (max c.curBatchSize 1) ∧
          ∀ s, s < start → ¬ FreeRun c.cells s (max c.curBatchSize 1))) ∧
    ((findStartPos c).2 = some (Err.kvCacheFull c.Capacity) ↔
        ∀ s, ¬ FreeRun c.cells s (max c.curBatchSize 1)) ∧
    ((findStartPos c).2 = none ∨ (findStartPos c).2 = some (Err.kvCacheFull c.Capacity)) := by
  have key := findStartPosLoop_spec c.curBatchSize (max c.curBatchSize 1) rfl c.cells [] 0 0
    (by simp) (by omega) (by intro k hk; omega) (by intro s hs; omega)
  simp only [List.nil_append, List.length_nil] at key
  unfold findStartPos
  cases hloop : findStartPosLoop c.curBatchSize c.cells 0 0 0 with
  | none =>
    rw [hloop] at key
    refine ⟨?_, ?_, ?_⟩
    · intro start
      constructor
      · intro h; simp at h
      · intro h; exact absurd h.1 (key start)
    · simp only [true_iff]; exact key
    · right; rfl
  | some r =>
    rw [hloop] at key
    refine ⟨?_, ?_, ?_⟩
    · intro start
      constructor
      · intro h
        simp only [Prod.mk.injEq, and_true] at h
        subst h
        exact key
      · intro h
        have h1 : ¬ start < r := fun hlt => key.2 start hlt h.1
        have h2 : ¬ r < start := fun hlt => h.2 r hlt key.1
        have : r = start := by omega
        simp [this]
    · simp only [false_iff, reduceCtorEq]
      intro h
      exact h r key.1
    · left; rfl

/-- C1 (amended): for every cell table and every batch size, `findStartPos`
returns the lowest offset `start` such that the cells
`[start, start + max batchSize 1)` lie inside the table and are all free, and it
fails, with `ErrKvCacheFull` carrying `Capacity`, exactly when no such offset
exists.  For `batchSize ≥ 1` the run length is `batchSize` itself. -/
theorem findStartPos_lowest_free_run (c : Simple) :
    (∀ start, findStartPos c = (start, none) ↔
        (FreeRun c.cells start (max c.curBatchSize 1) ∧
          ∀ s, s < start → ¬ FreeRun c.cells s (max c.curBatchSize 1))) ∧
    ((findStartPos c).2 = some (Err.kvCacheFull c.Capacity) ↔
        ∀ s, ¬ FreeRun c.cells s (max c.curBatchSize 1)) ∧
    ((findStartPos c).2 = none ∨ (findStartPos c).2 = some (Err.kvCacheFull c.Capacity)) :=
  findStartPos_run c

/-- C1 as stated fails for an empty batch: on a zero-capacity table the call
fails although offset 0 is a free run of length 0, and on the table
`[occupied, free]` the call returns offset 1 although offset 0 is a free run of
length 0. -/
theorem findStartPos_empty_batch_counterexample :
    ((findStartPos
        { Capacity := 0, curPos := 0, curBatchSize := 0, curMask := [], size := 0,
          cells := [], maxCell := 0, seqNextPos := SeqMap.empty }).2
        = some (Err.kvCacheFull 0) ∧
      FreeRun ([] : List cacheCell) 0 0) ∧
    (findStartPos
        { Capacity := 2, curPos := 0, curBatchSize := 0, curMask := [], size := 1,
          cells := [{ sequences := [{ seq := 1, pos := 0 }] }, { sequences := [] }],
          maxCell := 0, seqNextPos := [(1, 1)] }
        = (1, none) ∧
      FreeRun [{ sequences := [{ seq := 1, pos := 0 }] }, { sequences := [] }] 0 0) := by
  decide

/-! ## Wrap-around arithmetic -/

theorem wrap_id (x : Int) (h1 : -9223372036854775808 ≤ x) (h2 : x < 9223372036854775808) :
    wrap x = x := by
  unfold wrap; omega

theorem wrap_bounds (x : Int) : -9223372036854775808 ≤ wrap x ∧ wrap x < 9223372036854775808 := by
  unfold wrap; omega

theorem wrap_add_wrap (a b : Int) : wrap (wrap a + b) = wrap (a + b) := by
  unfold wrap; omega

theorem wrap_add_wrap_right (a b : Int) : wrap (a + wrap b) = wrap (a + b) := by
  unfold wrap; omega

theorem wrap_sub_wrap (a b : Int) : wrap (a - wrap b) = wrap (a - b) := by
  unfold wrap; omega

theorem advance_succ (v : Int) (k : Nat) : advance (wrap (v + 1)) k = advance v (k + 1) := by
  unfold advance
  by_cases hk : k = 0
  · subst hk; simp
  · simp only [hk, if_false, Nat.add_eq_zero, one_ne_zero, and_false]
    rw [wrap_add_wrap]
    congr 1
    push_cast
    ring

/-! ## Next-position map -/

theorem SeqMap.get_set (m : List (Int × Int)) (k v s : Int) :
    SeqMap.get (SeqMap.set m k v) s = if s = k then v else SeqMap.get m s := by
  induction m with
  | nil =>
    simp only [SeqMap.set, SeqMap.get]
    by_cases h : k = s
    · simp [h]
    · have : ¬ s = k := fun e => h e.symm
      simp [h, this]
  | cons e m ih =>
    obtain ⟨a, b⟩ := e
    simp only [SeqMap.set]
    by_cases h : a = k
    · subst h
      simp only [if_true, SeqMap.get]
      by_cases h2 : a = s
      · simp [h2]
      · have : ¬ s = a := fun e => h2 e.symm
        simp [h2, this]
    · simp only [if_neg h, SeqMap.get, ih]
      by_cases h2 : a = s
      · have : ¬ s = k := fun e => h (h2.trans e)
        simp [h2, this]
      · simp [h2]

theorem SeqMap.get_empty (s : Int) : SeqMap.get SeqMap.empty s = 0 := rfl

/-! ## The write loop of `StartForward` -/

theorem assignCell_fields (c : Simple) (i : Nat) (seq : Int) :
    (assignCell c i seq).Capacity = c.Capacity ∧
    (assignCell c i seq).curPos = c.curPos ∧
    (assignCell c i seq).curBatchSize = c.curBatchSize ∧
    (assignCell c i seq).curMask = c.curMask ∧
    (assignCell c i seq).size = wrap (c.size + 1) ∧
    (assignCell c i seq).cells = c.cells.set (c.curPos + i)
      { sequences := [{ seq := seq, pos := SeqMap.get c.seqNextPos seq }] } ∧
    (assignCell c i seq).maxCell = max c.maxCell (c.curPos + i) ∧
    (assignCell c i seq).seqNextPos
      = SeqMap.set c.seqNextPos seq (wrap (SeqMap.get c.seqNextPos seq + 1)) := by
  unfold assignCell
  by_cases h : c.curPos + i > c.maxCell
  · simp [h]; omega
  · simp [h]; omega

theorem advance_zero (v : Int) : advance v 0 = v := by
  simp [advance]

theorem advance_pos (v : Int) (k : Nat) (hk : 0 < k) : advance v k = wrap (v + (k : Int)) := by
  unfold advance
  rw [if_neg (by omega)]

theorem assignLoop_spec :
    ∀ (seqs : List Int) (i : Nat) (c c1 : Simple), assignLoop seqs i c = Run.ret c1 →
      c1.Capacity = c.Capacity ∧ c1.curPos = c.curPos ∧ c1.curBatchSize = c.curBatchSize ∧
      c1.curMask = c.curMask ∧
      c1.size = advance c.size seqs.length ∧
      c1.cells.length = c.cells.length ∧
      (seqs ≠ [] → c.curPos + i + seqs.length ≤ c.cells.length) ∧
      (∀ j, j < c.curPos + i ∨ c.curPos + i + seqs.length ≤ j → c1.cells[j]? = c.cells[j]?) ∧
      (∀ k seq, seqs[k]? = some seq →
        c1.cells[c.curPos + i + k]? = some
          { sequences := [{ seq := seq,
                            pos := advance (SeqMap.get c.seqNextPos seq)
                              ((seqs.take k).count seq) }] }) ∧
      (∀ s, SeqMap.get c1.seqNextPos s = advance (SeqMap.get c.seqNextPos s) (seqs.count s)) ∧
      c1.maxCell = (if seqs = [] then c.maxCell
                    else max c.maxCell (c.curPos + i + seqs.length - 1)) := by
  intro seqs
  induction seqs with
  | nil =>
    intro i c c1 h
    simp only [assignLoop, Run.ret.injEq] at h
    subst h
    simp [advance_zero]
  | cons seq rest ih =>
    intro i c c1 h
    unfold assignLoop at h
    by_cases hb : c.curPos + i < c.cells.length
    · rw [if_pos hb] at h
      obtain ⟨f1, f2, f3, f4, f5, f6, f7, f8⟩ := assignCell_fields c i seq
      obtain ⟨g1, g2, g3, g4, g5, g6, g7, g8, g9, g10, g11⟩ := ih (i + 1) _ _ h
      rw [f2] at g7 g8 g9 g11
      rw [f6] at g6 g7 g8
      simp only [List.length_set] at g6 g7
      refine ⟨g1.trans f1, g2.trans f2, g3.trans f3, g4.trans f4, ?_, g6, ?_, ?_, ?_, ?_, ?_⟩
      · rw [g5, f5, advance_succ, List.length_cons]
      · intro _
        by_cases hr : rest = []
        · subst hr; simp; omega
        · have := g7 hr
          simp only [List.length_cons]; omega
      · intro j hj
        simp only [List.length_cons] at hj
        rw [g8 j (by omega)]
        rw [List.getElem?_set_ne (by omega)]
      · intro k s hk
        cases k with
        | zero =>
          simp only [List.getElem?_cons_zero, Option.some.injEq] at hk
          subst hk
          rw [g8 _ (by omega)]
          simp [List.getElem?_set_self hb, advance_zero]
        | succ k =>
          simp only [List.getElem?_cons_succ] at hk
          have := g9 k s hk
          have e : c.curPos + i + (k + 1) = c.curPos + (i + 1) + k := by omega
          rw [e, this, f8, SeqMap.get_set]
          simp only [List.take_succ_cons, List.count_cons]
          by_cases hs : s = seq
          · subst hs
            simp only [if_true, beq_self_eq_true, advance_succ]
          · have : ¬ seq = s := fun e => hs e.symm
            simp [hs, this]
      · intro s
        rw [g10, f8, SeqMap.get_set, List.count_cons]
        by_cases hs : s = seq
        · subst hs
          simp only [if_true, beq_self_eq_true, advance_succ]
        · have : ¬ seq = s := fun e => hs e.symm
          simp [hs, this]
      · rw [g11, f7]
        simp only [reduceCtorEq, if_false, List.length_cons]
        by_cases hr : rest = []
        · subst hr; simp
        · have := g7 hr
          have hl : 0 < rest.length := List.length_pos.mpr hr
          simp only [hr, if_false]
          omega
    · rw [if_neg hb] at h
      exact absurd h (by simp)

theorem assignLoop_returns :
    ∀ (seqs : List Int) (i : Nat) (c : Simple), c.curPos + i + seqs.length ≤ c.cells.length →
      ∃ c1, assignLoop seqs i c = Run.ret c1 := by
  intro seqs
  induction seqs with
  | nil => intro i c _; exact ⟨c, rfl⟩
  | cons seq rest ih =>
    intro i c h
    simp only [List.length_cons] at h
    unfold assignLoop
    rw [if_pos (by omega)]
    obtain ⟨f1, f2, f3, f4, f5, f6, f7, f8⟩ := assignCell_fields c i seq
    apply ih
    rw [f2, f6, List.length_set]
    omega

theorem StartForward_success (c c1 : Simple) (seqs : List Int)
    (h : StartForward c seqs = Run.ret (c1, none)) :
    ∃ start c2 mask,
      findStartPos { c with curBatchSize := seqs.length } = (start, none) ∧
      assignLoop seqs 0 { c with curBatchSize := seqs.length, curPos := start } = Run.ret c2 ∧
      buildMask c2 c.seqNextPos seqs = Run.ret mask ∧
      c1 = { c2 with curMask := mask } := by
  unfold StartForward at h
  simp only [defrag] at h
  split at h
  · exact absurd h (by simp)
  · cases hr : findStartPos { c with curBatchSize := seqs.length } with
    | mk start err =>
      rw [hr] at h
      cases err with
      | some e =>
        simp only [finishForward] at h
        simp at h
      | none =>
        simp only [finishForward] at h
        cases ha : assignLoop seqs 0 { c with curBatchSize := seqs.length, curPos := start } with
        | panic why => rw [ha] at h; simp at h
        | ret c2 =>
          rw [ha] at h
          simp only at h
          cases hm : buildMask c2 c.seqNextPos seqs with
          | panic why => rw [hm] at h; simp at h
          | ret mask =>
            rw [hm] at h
            simp only [Run.ret.injEq, Prod.mk.injEq, and_true] at h
            exact ⟨start, c2, mask, rfl, ha, hm, h.symm⟩

theorem finishForward_none (c : Simple) (seqs : List Int) (c1 : Simple) (e : Err) :
    finishForward c none seqs ≠ Run.ret (c1, some e) := by
  unfold finishForward
  simp only
  split
  · simp
  · split <;> simp

theorem StartForward_error (c c1 : Simple) (seqs : List Int) (e : Err) :
    StartForward c seqs = Run.ret (c1, some e) ↔
      ((findStartPos { c with curBatchSize := seqs.length }).2 = some (Err.kvCacheFull c.Capacity) ∧
        ¬ wrap (c.size + (seqs.length : Int)) ≤ c.Capacity ∧
        e = Err.kvCacheFull c.Capacity ∧
        c1 = { c with curBatchSize := seqs.length, curPos := 0 }) := by
  unfold StartForward
  simp only [defrag]
  cases hr : findStartPos { c with curBatchSize := seqs.length } with
  | mk start err =>
    have hdich := (findStartPos_run { c with curBatchSize := seqs.length }).2.2
    rw [hr] at hdich
    simp only at hdich
    have hzero : err ≠ none → start = 0 := by
      intro hne
      unfold findStartPos at hr
      split at hr
      · simp only [Prod.mk.injEq] at hr
        exact absurd hr.2.symm hne
      · simp only [Prod.mk.injEq] at hr
        exact hr.1.symm
    rcases hdich with hd | hd
    · subst hd
      simp only [isKvCacheFull, Bool.false_eq_true, false_and, if_false, reduceCtorEq]
      constructor
      · intro h; exact absurd h (finishForward_none _ _ _ _)
      · intro h; exact h.elim
    · subst hd
      have hs : start = 0 := hzero (by simp)
      subst hs
      simp only [isKvCacheFull, true_and]
      by_cases hcap : wrap (c.size + (seqs.length : Int)) ≤ c.Capacity
      · rw [if_pos hcap]
        constructor
        · intro h; exact absurd h (by simp)
        · intro h; exact absurd hcap h.1
      · rw [if_neg hcap]
        simp only [finishForward, Run.ret.injEq, Prod.mk.injEq, Option.some.injEq, true_and]
        constructor
        · rintro ⟨h1, h2⟩
          exact ⟨hcap, h2.symm, h1.symm⟩
        · rintro ⟨_, h2, h1⟩
          exact ⟨h1.symm, h2.symm⟩

theorem not_mem_take_of_nodup :
    ∀ (seqs : List Int) (k : Nat) (seq : Int), seqs.Nodup → seqs[k]? = some seq →
      seq ∉ seqs.take k := by
  intro seqs
  induction seqs with
  | nil => intro k seq _ h; simp at h
  | cons a rest ih =>
    intro k seq hnd h
    cases k with
    | zero => simp
    | succ k =>
      simp only [List.getElem?_cons_succ] at h
      rw [List.nodup_cons] at hnd
      simp only [List.take_succ_cons, List.mem_cons, not_or]
      refine ⟨?_, ih k seq hnd.2 h⟩
      intro e
      subst e
      exact hnd.1 (List.getElem?_mem h)

/-- C2 as stated fails where the increments overflow: on a fresh capacity-4
cache `Remove(2, MaxInt64, MaxInt64)` leaves `seqNextPos[2] = size = MaxInt64`, and
the successful `StartForward([2])` that follows leaves both at `MinInt64`, not at
`MaxInt64 + 1`. -/
theorem StartForward_postcondition_counterexample :
    NewSimpleCache 4 = Run.ret fresh4 ∧
    (Remove fresh4 2 9223372036854775807 9223372036854775807).1 = maxed4 ∧
    StartForward maxed4 [2] = Run.ret (overflowed4, none) ∧
    SeqMap.get maxed4.seqNextPos 2 = 9223372036854775807 ∧
    SeqMap.get overflowed4.seqNextPos 2 = -9223372036854775808 ∧
    SeqMap.get overflowed4.seqNextPos 2 ≠ SeqMap.get maxed4.seqNextPos 2 + 1 ∧
    overflowed4.size ≠ maxed4.size + 1 := by
  decide

/-- C2 (amended): when `StartForward` succeeds on a non-empty batch of pairwise
distinct ids with start offset `curPos`, the cells `[curPos, curPos + len(seqs))`
were inside the table and free before the call; afterwards cell `curPos + i`
holds exactly the association `(seqs[i], p_i)` with `p_i` the next position of
`seqs[i]` before the call, that next position is now `p_i + 1` and `size` is
`size + len(seqs)`, both reduced to 64 bits with wrap-around, and the cells
outside the range and the next positions of the sequences not in the batch are
unchanged. -/
theorem StartForward_postcondition (c c1 : Simple) (seqs : List Int)
    (hne : seqs ≠ []) (hnd : seqs.Nodup) (h : StartForward c seqs = Run.ret (c1, none)) :
    FreeRun c.cells c1.curPos seqs.length ∧
    (∀ i seq, seqs[i]? = some seq →
      c1.cells[c1.curPos + i]? = some
          { sequences := [{ seq := seq, pos := SeqMap.get c.seqNextPos seq }] } ∧
      SeqMap.get c1.seqNextPos seq = wrap (SeqMap.get c.seqNextPos seq + 1)) ∧
    c1.size = wrap (c.size + (seqs.length : Int)) ∧
    (∀ j, j < c1.curPos ∨ c1.curPos + seqs.length ≤ j → c1.cells[j]? = c.cells[j]?) ∧
    (∀ s, s ∉ seqs → SeqMap.get c1.seqNextPos s = SeqMap.get c.seqNextPos s) := by
  obtain ⟨start, c2, mask, hf, ha, _, hc⟩ := StartForward_success c c1 seqs h
  obtain ⟨g1, g2, g3, g4, g5, g6, g7, g8, g9, g10, g11⟩ := assignLoop_spec seqs 0 _ _ ha
  have hlen : 0 < seqs.length := List.length_pos.mpr hne
  have hrun := ((findStartPos_run _).1 start).1 hf
  simp only [Nat.max_eq_left hlen] at hrun
  subst hc
  simp only [Nat.add_zero] at g8 g9
  simp only [g2]
  refine ⟨hrun.1, ?_, ?_, g8, ?_⟩
  · intro i seq hi
    constructor
    · have := g9 i seq hi
      rw [List.count_eq_zero_of_not_mem (not_mem_take_of_nodup seqs i seq hnd hi),
        advance_zero] at this
      exact this
    · rw [g10, List.count_eq_one_of_mem hnd (List.getElem?_mem hi), advance_pos _ _ (by omega)]
      simp
  · rw [g5, advance_pos _ _ hlen]
  · intro s hs
    rw [g10, List.count_eq_zero_of_not_mem hs, advance_zero]

theorem StartForward_postcondition_witness :
    NewSimpleCache 4 = Run.ret fresh4 ∧
    ([1, 2] : List Int) ≠ [] ∧ ([1, 2] : List Int).Nodup ∧
    StartForward fresh4 [1, 2] = Run.ret (oneStep4, none) ∧
    FreeRun fresh4.cells oneStep4.curPos 2 ∧
    (∀ i seq, ([1, 2] : List Int)[i]? = some seq →
      oneStep4.cells[oneStep4.curPos + i]? = some
          { sequences := [{ seq := seq, pos := SeqMap.get fresh4.seqNextPos seq }] } ∧
      SeqMap.get oneStep4.seqNextPos seq = wrap (SeqMap.get fresh4.seqNextPos seq + 1)) ∧
    oneStep4.size = wrap (fresh4.size + 2) ∧ oneStep4.size = 2 :=
  have h := StartForward_postcondition fresh4 oneStep4 [1, 2] (by decide) (by decide) (by decide)
  ⟨by decide, by decide, by decide, by decide, h.1, h.2.1, h.2.2.1, by decide⟩

/-! ## `findSeq` -/

theorem findSeqFrom_none (seq : Int) :
    ∀ (l : List seqCell) (i : Nat), findSeqFrom seq l i = none ↔ ∀ s ∈ l, s.seq ≠ seq := by
  intro l
  induction l with
  | nil => intro i; simp [findSeqFrom]
  | cons a rest ih =>
    intro i
    unfold findSeqFrom
    by_cases h : a.seq = seq
    · simp [h]
    · simp [h, ih]

theorem findSeqFrom_some (seq : Int) :
    ∀ (l : List seqCell) (i k : Nat) (s : seqCell), findSeqFrom seq l i = some (k, s) →
      i ≤ k ∧ l[k - i]? = some s ∧ s.seq = seq ∧
      ∀ t ∈ l.take (k - i), t.seq ≠ seq := by
  intro l
  induction l with
  | nil => intro i k s h; simp [findSeqFrom] at h
  | cons a rest ih =>
    intro i k s h
    unfold findSeqFrom at h
    by_cases ha : a.seq = seq
    · rw [if_pos ha] at h
      simp only [Option.some.injEq, Prod.mk.injEq] at h
      obtain ⟨h1, h2⟩ := h
      subst h1 h2
      simp [ha]
    · rw [if_neg ha] at h
      obtain ⟨h1, h2, h3, h4⟩ := ih (i + 1) k s h
      have e : k - i = (k - (i + 1)) + 1 := by omega
      refine ⟨by omega, ?_, h3, ?_⟩
      · rw [e]; simpa using h2
      · rw [e]
        intro t ht
        simp only [List.take_succ_cons, List.mem_cons] at ht
        rcases ht with ht | ht
        · subst ht; exact ha
        · exact h4 t ht

theorem findSeq_some (cell : cacheCell) (seq : Int) (k : Nat) (s : seqCell)
    (h : cell.findSeq seq = some (k, s)) :
    cell.sequences[k]? = some s ∧ s.seq = seq ∧ s ∈ cell.sequences ∧
      ∀ t ∈ cell.sequences.take k, t.seq ≠ seq := by
  obtain ⟨_, h2, h3, h4⟩ := findSeqFrom_some seq cell.sequences 0 k s h
  simp only [Nat.sub_zero] at h2 h4
  exact ⟨h2, h3, List.getElem?_mem h2, h4⟩

theorem findSeq_none (cell : cacheCell) (seq : Int) :
    cell.findSeq seq = none ↔ ∀ s ∈ cell.sequences, s.seq ≠ seq :=
  findSeqFrom_none seq cell.sequences 0

theorem findSeq_isSome_of_mem (cell : cacheCell) (seq : Int) (s : seqCell)
    (hs : s ∈ cell.sequences) (hseq : s.seq = seq) :
    ∃ k t, cell.findSeq seq = some (k, t) := by
  cases h : cell.findSeq seq with
  | none => exact absurd hseq ((findSeq_none cell seq).1 h s hs)
  | some kt => exact ⟨kt.1, kt.2, rfl⟩

theorem findSeq_unique (cell : cacheCell) (seq : Int) (k : Nat) (s t : seqCell)
    (hnd : (cell.sequences.map seqCell.seq).Nodup)
    (h : cell.findSeq seq = some (k, s)) (ht : t ∈ cell.sequences) (hseq : t.seq = seq) :
    t = s := by
  obtain ⟨_, h2, h3, _⟩ := findSeq_some cell seq k s h
  exact List.inj_on_of_nodup_map hnd ht h3 (hseq.trans h2.symm)

/-! ## Mask builder -/

theorem maskInner_spec (c : Simple) (origSeq : SeqMap) (seqs : List Int) (i : Nat) :
    ∀ (todo j : Nat) (mask out : List MaskVal),
      maskInner c origSeq seqs i todo j mask = Run.ret out →
      out.length = mask.length ∧
      (∀ idx, idx < i * c.maxCell + j ∨ i * c.maxCell + j + todo ≤ idx →
        out[idx]? = mask[idx]?) ∧
      (∀ k, k < todo → ∃ cell seq, c.cells[j + k]? = some cell ∧ seqs[i]? = some seq ∧
        (isMasked origSeq i cell seq = true → i * c.maxCell + j + k < mask.length →
          out[i * c.maxCell + j + k]? = some MaskVal.negInf) ∧
        (isMasked origSeq i cell seq = false →
          out[i * c.maxCell + j + k]? = mask[i * c.maxCell + j + k]?)) := by
  intro todo
  induction todo with
  | zero =>
    intro j mask out h
    simp only [maskInner, Run.ret.injEq] at h
    subst h
    exact ⟨rfl, fun _ _ => rfl, fun k hk => absurd hk (by omega)⟩
  | succ todo ih =>
    intro j mask out h
    unfold maskInner at h
    cases hc : c.cells[j]? with
    | none => rw [hc] at h; simp at h
    | some cell =>
      cases hs : seqs[i]? with
      | none => rw [hc, hs] at h; simp at h
      | some seq =>
        rw [hc, hs] at h
        simp only at h
        by_cases hm : isMasked origSeq i cell seq = true
        · rw [if_pos hm] at h
          obtain ⟨g1, g2, g3⟩ := ih _ _ _ h
          simp only [List.length_set] at g1 g2 g3
          refine ⟨g1, ?_, ?_⟩
          · intro idx hidx
            rw [g2 idx (by omega), List.getElem?_set_ne (by omega)]
          · intro k hk
            cases k with
            | zero =>
              refine ⟨cell, seq, hc, rfl, ?_, ?_⟩
              · intro _ hlt
                rw [Nat.add_zero] at hlt ⊢
                rw [g2 _ (by omega), List.getElem?_set_self hlt]
              · intro hf; rw [hm] at hf; exact absurd hf (by simp)
            | succ k =>
              obtain ⟨cell1, seq1, e1, e2, e3, e4⟩ := g3 k (by omega)
              have e : j + (k + 1) = j + 1 + k := by omega
              have e' : i * c.maxCell + j + (k + 1) = i * c.maxCell + (j + 1) + k := by omega
              rw [e, e']
              refine ⟨cell1, seq1, e1, hs.symm.trans e2, e3, ?_⟩
              intro hf
              rw [e4 hf, List.getElem?_set_ne (by omega)]
        · rw [if_neg hm] at h
          obtain ⟨g1, g2, g3⟩ := ih _ _ _ h
          have hm' : isMasked origSeq i cell seq = false := by simpa using hm
          refine ⟨g1, ?_, ?_⟩
          · intro idx hidx
            rw [g2 idx (by omega)]
          · intro k hk
            cases k with
            | zero =>
              refine ⟨cell, seq, hc, rfl, ?_, ?_⟩
              · intro ht; rw [hm'] at ht; exact absurd ht (by simp)
              · intro _
                rw [Nat.add_zero]
                exact g2 _ (by omega)
            | succ k =>
              obtain ⟨cell1, seq1, e1, e2, e3, e4⟩ := g3 k (by omega)
              have e : j + (k + 1) = j + 1 + k := by omega
              have e' : i * c.maxCell + j + (k + 1) = i * c.maxCell + (j + 1) + k := by omega
              rw [e, e']
              exact ⟨cell1, seq1, e1, hs.symm.trans e2, e3, e4⟩

theorem maskOuter_spec (c : Simple) (origSeq : SeqMap) (seqs : List Int) :
    ∀ (todo i : Nat) (mask out : List MaskVal),
      maskOuter c origSeq seqs todo i mask = Run.ret out →
      out.length = mask.length ∧
      (∀ idx, idx < i * c.maxCell → out[idx]? = mask[idx]?) ∧
      (∀ r j, r < todo → j < c.maxCell →
        ∃ cell seq, c.cells[j]? = some cell ∧ seqs[i + r]? = some seq ∧
        (isMasked origSeq (i + r) cell seq = true → (i + r) * c.maxCell + j < mask.length →
          out[(i + r) * c.maxCell + j]? = some MaskVal.negInf) ∧
        (isMasked origSeq (i + r) cell seq = false →
          out[(i + r) * c.maxCell + j]? = mask[(i + r) * c.maxCell + j]?)) := by
  intro todo
  induction todo with
  | zero =>
    intro i mask out h
    simp only [maskOuter, Run.ret.injEq] at h
    subst h
    exact ⟨rfl, fun _ _ => rfl, fun r j hr => absurd hr (by omega)⟩
  | succ todo ih =>
    intro i mask out h
    unfold maskOuter at h
    cases hin : maskInner c origSeq seqs i c.maxCell 0 mask with
    | panic why => rw [hin] at h; simp at h
    | ret mask1 =>
      rw [hin] at h
      simp only at h
      obtain ⟨a1, a2, a3⟩ := maskInner_spec c origSeq seqs i _ _ _ _ hin
      obtain ⟨b1, b2, b3⟩ := ih _ _ _ h
      have hmul : (i + 1) * c.maxCell = i * c.maxCell + c.maxCell := by ring
      refine ⟨b1.trans a1, ?_, ?_⟩
      · intro idx hidx
        rw [b2 idx (by rw [hmul]; omega), a2 idx (by omega)]
      · intro r j hr hj
        cases r with
        | zero =>
          obtain ⟨cell, seq, e1, e2, e3, e4⟩ := a3 j hj
          simp only [Nat.add_zero, Nat.zero_add] at e1 e3 e4 ⊢
          refine ⟨cell, seq, e1, e2, ?_, ?_⟩
          · intro hm hlt
            rw [b2 _ (by rw [hmul]; omega)]
            exact e3 hm hlt
          · intro hm
            rw [b2 _ (by rw [hmul]; omega)]
            exact e4 hm
        | succ r =>
          obtain ⟨cell, seq, e1, e2, e3, e4⟩ := b3 r j (by omega) hj
          have e : i + (r + 1) = i + 1 + r := by omega
          rw [e]
          refine ⟨cell, seq, e1, e2, ?_, ?_⟩
          · intro hm hlt
            exact e3 hm (by rw [a1]; exact hlt)
          · intro hm
            rw [e4 hm]
            have hge : i * c.maxCell + 0 + c.maxCell ≤ (i + 1 + r) * c.maxCell + j := by
              have : (i + 1) * c.maxCell ≤ (i + 1 + r) * c.maxCell :=
                Nat.mul_le_mul_right _ (by omega)
              rw [hmul] at this
              omega
            exact a2 _ (Or.inr hge)

theorem maskInner_returns (c : Simple) (origSeq : SeqMap) (seqs : List Int) (i : Nat)
    (hi : i < seqs.length) :
    ∀ (todo j : Nat) (mask : List MaskVal), j + todo ≤ c.cells.length →
      ∃ out, maskInner c origSeq seqs i todo j mask = Run.ret out := by
  intro todo
  induction todo with
  | zero => intro j mask _; exact ⟨mask, rfl⟩
  | succ todo ih =>
    intro j mask h
    unfold maskInner
    have hj : j < c.cells.length := by omega
    rw [List.getElem?_eq_getElem hj, List.getElem?_eq_getElem hi]
    exact ih _ _ (by omega)

theorem maskOuter_returns (c : Simple) (origSeq : SeqMap) (seqs : List Int)
    (hmax : c.maxCell ≤ c.cells.length) :
    ∀ (todo i : Nat) (mask : List MaskVal), i + todo ≤ seqs.length →
      ∃ out, maskOuter c origSeq seqs todo i mask = Run.ret out := by
  intro todo
  induction todo with
  | zero => intro i mask _; exact ⟨mask, rfl⟩
  | succ todo ih =>
    intro i mask h
    unfold maskOuter
    obtain ⟨m1, hm1⟩ := maskInner_returns c origSeq seqs i (by omega) c.maxCell 0 mask (by omega)
    rw [hm1]
    exact ih _ _ (by omega)

theorem buildMask_entries (c : Simple) (origSeq : SeqMap) (seqs : List Int) (mask : List MaskVal)
    (h : buildMask c origSeq seqs = Run.ret mask) :
    mask.length = c.curBatchSize * c.maxCell ∧
    ∀ i j, i < c.curBatchSize → j < c.maxCell →
      ∃ cell seq, c.cells[j]? = some cell ∧ seqs[i]? = some seq ∧
        mask[i * c.maxCell + j]? =
          some (if isMasked origSeq i cell seq = true then MaskVal.negInf else MaskVal.zero) := by
  unfold buildMask at h
  obtain ⟨a1, _, a3⟩ := maskOuter_spec c origSeq seqs _ _ _ _ h
  simp only [List.length_replicate] at a1 a3
  refine ⟨a1, ?_⟩
  intro i j hi hj
  obtain ⟨cell, seq, e1, e2, e3, e4⟩ := a3 i j hi hj
  simp only [Nat.zero_add] at e2 e3 e4
  have hlt : i * c.maxCell + j < c.curBatchSize * c.maxCell := by
    have : (i + 1) * c.maxCell ≤ c.curBatchSize * c.maxCell := Nat.mul_le_mul_right _ (by omega)
    have hmul : (i + 1) * c.maxCell = i * c.maxCell + c.maxCell := by ring
    omega
  refine ⟨cell, seq, e1, e2, ?_⟩
  by_cases hm : isMasked origSeq i cell seq = true
  · rw [if_pos hm]; exact e3 hm hlt
  · rw [if_neg hm, e4 (by simpa using hm)]
    simp [hlt]

theorem isMasked_iff (origSeq : SeqMap) (i : Nat) (cell : cacheCell) (seq : Int)
    (hnd : (cell.sequences.map seqCell.seq).Nodup) :
    isMasked origSeq i cell seq = false ↔
      ∃ p, ({ seq := seq, pos := p } : seqCell) ∈ cell.sequences ∧
        p ≤ wrap (SeqMap.get origSeq seq + (i : Int)) := by
  unfold isMasked
  cases h : cell.findSeq seq with
  | none =>
    simp only [reduceCtorEq, false_iff, not_exists, not_and]
    intro p hp
    exact absurd rfl ((findSeq_none cell seq).1 h _ hp)
  | some ks =>
    obtain ⟨k, s⟩ := ks
    obtain ⟨_, h2, h3, _⟩ := findSeq_some cell seq k s h
    simp only [decide_eq_false_iff_not, not_lt]
    constructor
    · intro hle
      refine ⟨s.pos, ?_, hle⟩
      have : ({ seq := seq, pos := s.pos } : seqCell) = s := by
        cases s; simp at h2 ⊢; exact h2.symm
      rw [this]; exact h3
    · rintro ⟨p, hp, hle⟩
      have := findSeq_unique cell seq k s _ hnd h hp rfl
      rw [← this]; exact hle

/-- C3 as stated fails where `origSeq[seqs[i]] + i` overflows: after the two
steps of the scenario, `Remove(1, 0, 2)`, `Remove(2, 0, 2)` and
`Copy(1, 9, MinInt64 + 1, 0)`, the next position of sequence 9 is `MaxInt64`; the
step `StartForward([1, 9])` writes `(9, MaxInt64)` into cell 1, and the mask entry
of row 1 and column 1 is negative infinity although `MaxInt64 ≤ MaxInt64 + 1`. -/
theorem buildMask_counterexample :
    (Remove (Remove twoSteps4 1 0 2).1 2 0 2).1.cells = fresh4.cells ∧
    Copy (Remove (Remove twoSteps4 1 0 2).1 2 0 2).1 1 9 (-9223372036854775807) 0 = primed4 ∧
    StartForward primed4 [1, 9] = Run.ret (masked4, none) ∧
    buildMask masked4 primed4.seqNextPos [1, 9] = Run.ret masked4.curMask ∧
    CellInv masked4 ∧
    masked4.cells[1]? = some { sequences := [{ seq := 9, pos := 9223372036854775807 }] } ∧
    (9223372036854775807 : Int) ≤ SeqMap.get primed4.seqNextPos 9 + ((1 : Nat) : Int) ∧
    masked4.curMask[1 * masked4.maxCell + 1]? = some MaskVal.negInf := by
  decide

/-- C3 (amended): for a step with batch `seqs` (so `curBatchSize = len(seqs)`) and
origins `origSeq`, in a state where each cell holds at most one association per
sequence id, `buildMask` returns whenever `maxCell` rows exist in the table, and
in the mask it returns, for every batch column `i` and row `j < maxCell`, the
entry at flat index `i * maxCell + j` is `0` exactly when cell `j` holds an
association `(seqs[i], p)` with `p ≤ origSeq[seqs[i]] + i`, the sum reduced to 64
bits with wrap-around, and is negative infinity otherwise. -/
theorem buildMask_correct (c : Simple) (origSeq : SeqMap) (seqs : List Int)
    (hstep : c.curBatchSize = seqs.length) (hinv : CellInv c) :
    (c.maxCell ≤ c.cells.length → ∃ mask, buildMask c origSeq seqs = Run.ret mask) ∧
    ∀ mask, buildMask c origSeq seqs = Run.ret mask →
      ∀ i j seq, seqs[i]? = some seq → j < c.maxCell →
        ∃ cell, c.cells[j]? = some cell ∧
          (mask[i * c.maxCell + j]? = some MaskVal.zero ↔
            ∃ p, ({ seq := seq, pos := p } : seqCell) ∈ cell.sequences ∧
              p ≤ wrap (SeqMap.get origSeq seq + (i : Int))) ∧
          ((¬ ∃ p, ({ seq := seq, pos := p } : seqCell) ∈ cell.sequences ∧
              p ≤ wrap (SeqMap.get origSeq seq + (i : Int))) →
            mask[i * c.maxCell + j]? = some MaskVal.negInf) := by
  constructor
  · intro hmax
    unfold buildMask
    exact maskOuter_returns c origSeq seqs hmax _ _ _ (by omega)
  · intro mask h i j seq hi hj
    have hilt : i < c.curBatchSize := by
      rw [hstep]
      exact (List.getElem?_eq_some.1 hi).1
    obtain ⟨cell, seq1, e1, e2, e3⟩ := (buildMask_entries c origSeq seqs mask h).2 i j hilt hj
    rw [hi] at e2
    simp only [Option.some.injEq] at e2
    subst e2
    have hnd := hinv cell (List.getElem?_mem e1)
    have hiff := isMasked_iff origSeq i cell seq hnd
    refine ⟨cell, e1, ?_, ?_⟩
    · rw [e3, ← hiff]
      by_cases hm : isMasked origSeq i cell seq = true
      · simp [hm]
      · simp [hm]
    · intro hno
      rw [e3]
      have : isMasked origSeq i cell seq = true := by
        by_contra hm
        exact hno (hiff.1 (by simpa using hm))
      simp [this]

theorem buildMask_correct_witness :
    twoSteps4.curBatchSize = ([1, 2] : List Int).length ∧ CellInv twoSteps4 ∧
    buildMask twoSteps4 oneStep4.seqNextPos [1, 2] = Run.ret twoSteps4.curMask ∧
    ∀ i j seq, ([1, 2] : List Int)[i]? = some seq → j < twoSteps4.maxCell →
      ∃ cell, twoSteps4.cells[j]? = some cell ∧
        (twoSteps4.curMask[i * twoSteps4.maxCell + j]? = some MaskVal.zero ↔
          ∃ p, ({ seq := seq, pos := p } : seqCell) ∈ cell.sequences ∧
            p ≤ wrap (SeqMap.get oneStep4.seqNextPos seq + (i : Int))) ∧
        ((¬ ∃ p, ({ seq := seq, pos := p } : seqCell) ∈ cell.sequences ∧
            p ≤ wrap (SeqMap.get oneStep4.seqNextPos seq + (i : Int))) →
          twoSteps4.curMask[i * twoSteps4.maxCell + j]? = some MaskVal.negInf) :=
  ⟨by decide, by decide, by decide,
    (buildMask_correct twoSteps4 oneStep4.seqNextPos [1, 2] (by decide) (by decide)).2
      twoSteps4.curMask (by decide)⟩

/-! ## `Remove` -/

theorem map_seq_set_pos :
    ∀ (l : List seqCell) (k : Nat) (s : seqCell) (v : Int), l[k]? = some s →
      (l.set k { s with pos := v }).map seqCell.seq = l.map seqCell.seq := by
  intro l
  induction l with
  | nil => intro k s v h; simp at h
  | cons a rest ih =>
    intro k s v h
    cases k with
    | zero =>
      simp only [List.getElem?_cons_zero, Option.some.injEq] at h
      subst h
      simp
    | succ k =>
      simp only [List.getElem?_cons_succ] at h
      simp [ih k s v h]

theorem mem_set_self (l : List seqCell) (k : Nat) (s x : seqCell) (h : l[k]? = some s) :
    x ∈ l.set k x := by
  have hk : k < l.length := (List.getElem?_eq_some.1 h).1
  exact List.getElem?_mem (List.getElem?_set_self hk)

theorem removeCell_of_mem (seq b e off : Int) (cell : cacheCell) (p : Int)
    (hnd : (cell.sequences.map seqCell.seq).Nodup)
    (hp : ({ seq := seq, pos := p } : seqCell) ∈ cell.sequences) :
    ∃ k, cell.sequences[k]? = some { seq := seq, pos := p } ∧
      removeCell seq b e off cell =
        if p ≥ b ∧ p < e then
          { sequences := cell.sequences.filter (fun s => !decide (s.seq = seq)) }
        else if p ≥ e then
          { sequences := cell.sequences.set k { seq := seq, pos := wrap (p - off) } }
        else cell := by
  obtain ⟨k, t, hf⟩ := findSeq_isSome_of_mem cell seq _ hp rfl
  have ht := findSeq_unique cell seq k t _ hnd hf hp rfl
  subst ht
  refine ⟨k, (findSeq_some cell seq k _ hf).1, ?_⟩
  unfold removeCell
  rw [hf]

theorem removeCell_of_not_mem (seq b e off : Int) (cell : cacheCell)
    (h : ∀ s ∈ cell.sequences, s.seq ≠ seq) : removeCell seq b e off cell = cell := by
  unfold removeCell
  rw [(findSeq_none cell seq).2 h]

theorem Remove_fields (c : Simple) (seq b e : Int) :
    (Remove c seq b e).1.cells = c.cells.map
      (removeCell seq b (min e (SeqMap.get c.seqNextPos seq))
        (wrap (min e (SeqMap.get c.seqNextPos seq) - b))) ∧
    (Remove c seq b e).1.seqNextPos = SeqMap.set c.seqNextPos seq
      (wrap (SeqMap.get c.seqNextPos seq - (min e (SeqMap.get c.seqNextPos seq) - b))) ∧
    (Remove c seq b e).1.size = wrap (c.size - (min e (SeqMap.get c.seqNextPos seq) - b)) ∧
    (Remove c seq b e).1.maxCell = c.maxCell ∧ (Remove c seq b e).1.Capacity = c.Capacity := by
  refine ⟨rfl, ?_, ?_, rfl, rfl⟩
  · simp only [Remove, wrap_sub_wrap]
  · simp only [Remove, wrap_sub_wrap]

/-- C4 as stated fails where the subtraction overflows: after the two steps of
the scenario, `Remove(5, MaxInt64, 0)` has `e' = 0` and leaves
`size = -9223372036854775805`, not `size - (e' - begin) = 9223372036854775811`. -/
theorem Remove_effect_counterexample :
    StartForward fresh4 [1, 2] = Run.ret (oneStep4, none) ∧
    StartForward oneStep4 [1, 2] = Run.ret (twoSteps4, none) ∧
    CellInv twoSteps4 ∧
    (Remove twoSteps4 5 9223372036854775807 0).1.size = -9223372036854775805 ∧
    twoSteps4.size - (min 0 (SeqMap.get twoSteps4.seqNextPos 5) - 9223372036854775807)
      = 9223372036854775811 ∧
    (Remove twoSteps4 5 9223372036854775807 0).1.size ≠
      twoSteps4.size - (min 0 (SeqMap.get twoSteps4.seqNextPos 5) - 9223372036854775807) := by
  decide

/-- C4 (amended): in a state where each cell holds at most one association per
sequence id, with `e' = min(end, seqNextPos[seq])`, after `Remove(seq, begin, end)`
a cell that held `(seq, p)` with `begin ≤ p < e'` holds no association of `seq`; a
cell that held `(seq, p)` with `p` outside `[begin, e')` and `p ≥ e'` holds
`(seq, p - (e' - begin))` as its only association of `seq`; a cell holding any
other association of `seq` is unchanged; `seqNextPos[seq]` and `size` have each
decreased by `e' - begin`; each of these differences is reduced to 64 bits with
wrap-around; and the returned error is nil. -/
theorem Remove_effect (c : Simple) (seq b e : Int) (hinv : CellInv c) :
    (Remove c seq b e).1.cells.length = c.cells.length ∧
    (∀ (i : Nat) (cell : cacheCell) (p : Int), c.cells[i]? = some cell →
      ({ seq := seq, pos := p } : seqCell) ∈ cell.sequences →
      ∃ cell1 : cacheCell, (Remove c seq b e).1.cells[i]? = some cell1 ∧
        ((b ≤ p ∧ p < min e (SeqMap.get c.seqNextPos seq)) →
          ∀ q, ({ seq := seq, pos := q } : seqCell) ∉ cell1.sequences) ∧
        (¬ (b ≤ p ∧ p < min e (SeqMap.get c.seqNextPos seq)) →
          min e (SeqMap.get c.seqNextPos seq) ≤ p →
          ({ seq := seq,
             pos := wrap (p - (min e (SeqMap.get c.seqNextPos seq) - b)) } : seqCell)
              ∈ cell1.sequences ∧
          ∀ q, ({ seq := seq, pos := q } : seqCell) ∈ cell1.sequences →
            q = wrap (p - (min e (SeqMap.get c.seqNextPos seq) - b))) ∧
        (¬ (b ≤ p ∧ p < min e (SeqMap.get c.seqNextPos seq)) →
          p < min e (SeqMap.get c.seqNextPos seq) → cell1 = cell)) ∧
    SeqMap.get (Remove c seq b e).1.seqNextPos seq
      = wrap (SeqMap.get c.seqNextPos seq - (min e (SeqMap.get c.seqNextPos seq) - b)) ∧
    (Remove c seq b e).1.size
      = wrap (c.size - (min e (SeqMap.get c.seqNextPos seq) - b)) ∧
    (Remove c seq b e).2 = none := by
  obtain ⟨f1, f2, f3, _, _⟩ := Remove_fields c seq b e
  refine ⟨by rw [f1, List.length_map], ?_, by rw [f2, SeqMap.get_set, if_pos rfl], f3, rfl⟩
  intro i cell p hi hp
  have hnd := hinv cell (List.getElem?_mem hi)
  obtain ⟨k, hk, hrem⟩ :=
    removeCell_of_mem seq b (min e (SeqMap.get c.seqNextPos seq))
      (wrap (min e (SeqMap.get c.seqNextPos seq) - b)) cell p hnd hp
  rw [wrap_sub_wrap] at hrem
  refine ⟨_, by rw [f1, List.getElem?_map, hi]; rfl, ?_, ?_, ?_⟩
  · intro hin
    rw [hrem, if_pos ⟨hin.1, hin.2⟩]
    intro q hq
    simp [List.mem_filter] at hq
  · intro hout hge
    rw [hrem, if_neg (fun h => hout ⟨h.1, h.2⟩), if_pos hge]
    refine ⟨mem_set_self _ _ _ _ hk, ?_⟩
    intro q hq
    have hmap := map_seq_set_pos cell.sequences k _
      (wrap (p - (min e (SeqMap.get c.seqNextPos seq) - b))) hk
    have hnd2 : ((cell.sequences.set k
        { seq := seq, pos := wrap (p - (min e (SeqMap.get c.seqNextPos seq) - b)) }).map
          seqCell.seq).Nodup := by
      rw [hmap]; exact hnd
    have := List.inj_on_of_nodup_map hnd2 hq (mem_set_self _ _ _ _ hk) rfl
    simpa using this
  · intro hout hlt
    rw [hrem, if_neg (fun h => hout ⟨h.1, h.2⟩), if_neg (by omega)]

theorem Remove_effect_witness :
    CellInv twoSteps4 ∧
    (Remove twoSteps4 1 0 1).1.cells.length = twoSteps4.cells.length ∧
    (∃ cell1 : cacheCell, (Remove twoSteps4 1 0 1).1.cells[0]? = some cell1 ∧
      (((0 : Int) ≤ 0 ∧ (0 : Int) < min 1 (SeqMap.get twoSteps4.seqNextPos 1)) →
        ∀ q, ({ seq := 1, pos := q } : seqCell) ∉ cell1.sequences)) ∧
    (∃ cell1 : cacheCell, (Remove twoSteps4 1 0 1).1.cells[2]? = some cell1 ∧
      (¬ ((0 : Int) ≤ 1 ∧ (1 : Int) < min 1 (SeqMap.get twoSteps4.seqNextPos 1)) →
        min 1 (SeqMap.get twoSteps4.seqNextPos 1) ≤ 1 →
        ({ seq := 1,
           pos := wrap (1 - (min 1 (SeqMap.get twoSteps4.seqNextPos 1) - 0)) } : seqCell)
            ∈ cell1.sequences ∧
        ∀ q, ({ seq := 1, pos := q } : seqCell) ∈ cell1.sequences →
          q = wrap (1 - (min 1 (SeqMap.get twoSteps4.seqNextPos 1) - 0)))) ∧
    SeqMap.get (Remove twoSteps4 1 0 1).1.seqNextPos 1
      = wrap (SeqMap.get twoSteps4.seqNextPos 1
          - (min 1 (SeqMap.get twoSteps4.seqNextPos 1) - 0)) ∧
    (Remove twoSteps4 1 0 1).1.size
      = wrap (twoSteps4.size - (min 1 (SeqMap.get twoSteps4.seqNextPos 1) - 0)) ∧
    (Remove twoSteps4 1 0 1).1 = trimmed4 :=
  have h := Remove_effect twoSteps4 1 0 1 (by decide)
  ⟨by decide, h.1,
    (h.2.1 0 { sequences := [{ seq := 1, pos := 0 }] } 0 (by decide) (by decide)).elim
      (fun cell1 hc => ⟨cell1, hc.1, hc.2.1⟩),
    (h.2.1 2 { sequences := [{ seq := 1, pos := 1 }] } 1 (by decide) (by decide)).elim
      (fun cell1 hc => ⟨cell1, hc.1, hc.2.2.1⟩),
    h.2.2.1, h.2.2.2.1, by decide⟩

/-- C5 as stated fails: after the two steps of the scenario, `Remove(1, 0, 1)`
shifts the entry `(1, 1)` of cell 2 down to `(1, 0)`, so a cell holds sequence 1
at position 0, inside `[0, 1)`. -/
theorem Remove_compaction_counterexample :
    StartForward fresh4 [1, 2] = Run.ret (oneStep4, none) ∧
    StartForward oneStep4 [1, 2] = Run.ret (twoSteps4, none) ∧
    ∃ cell ∈ (Remove twoSteps4 1 0 1).1.cells, ∃ p : Int,
      ({ seq := 1, pos := p } : seqCell) ∈ cell.sequences ∧ 0 ≤ p ∧ p < 1 := by
  refine ⟨by decide, by decide, { sequences := [{ seq := 1, pos := 0 }] }, by decide, 0, ?_⟩
  decide

/-- C5 (amended): for every state, `seq` and range, with
`e' = min(e, seqNextPos[seq])`: after `Remove(seq, b, e)` a cell whose association
of `seq` (the one `findSeq` returns) had a position in `[b, e')` holds no
association of `seq`; a cell whose association of `seq` had a position `≥ e'`
(outside `[b, e')`) holds it at that position minus `e' - b`, reduced to 64 bits
with wrap-around, which can lie inside `[b, e)`. -/
theorem Remove_drops_range (c : Simple) (seq b e : Int) :
    ∀ (i : Nat) (cell : cacheCell) (k : Nat) (s : seqCell),
      c.cells[i]? = some cell → cell.findSeq seq = some (k, s) →
      ∃ cell1 : cacheCell, (Remove c seq b e).1.cells[i]? = some cell1 ∧
        ((b ≤ s.pos ∧ s.pos < min e (SeqMap.get c.seqNextPos seq)) →
          ∀ q, ({ seq := seq, pos := q } : seqCell) ∉ cell1.sequences) ∧
        (¬ (b ≤ s.pos ∧ s.pos < min e (SeqMap.get c.seqNextPos seq)) →
          min e (SeqMap.get c.seqNextPos seq) ≤ s.pos →
          cell1.sequences[k]? = some
            { seq := seq,
              pos := wrap (s.pos - (min e (SeqMap.get c.seqNextPos seq) - b)) }) := by
  intro i cell k s hi hf
  obtain ⟨hk, hseq, _, _⟩ := findSeq_some cell seq k s hf
  obtain ⟨f1, _, _, _, _⟩ := Remove_fields c seq b e
  refine ⟨_, by rw [f1, List.getElem?_map, hi]; rfl, ?_, ?_⟩
  · intro hin
    unfold removeCell
    rw [hf]
    simp only [ge_iff_le, hin.1, hin.2, and_self, if_true]
    intro q hq
    simp [List.mem_filter] at hq
  · intro hout hge
    unfold removeCell
    rw [hf]
    simp only [ge_iff_le]
    rw [if_neg (fun h => hout ⟨h.1, h.2⟩), if_pos hge]
    simp only
    rw [List.getElem?_set_self (List.getElem?_eq_some.1 hk).1, hseq, wrap_sub_wrap]

theorem Remove_drops_range_witness :
    twoSteps4.cells[0]? = some { sequences := [{ seq := 1, pos := 0 }] } ∧
    cacheCell.findSeq { sequences := [{ seq := 1, pos := 0 }] } 1
      = some (0, { seq := 1, pos := 0 }) ∧
    twoSteps4.cells[2]? = some { sequences := [{ seq := 1, pos := 1 }] } ∧
    cacheCell.findSeq { sequences := [{ seq := 1, pos := 1 }] } 1
      = some (0, { seq := 1, pos := 1 }) ∧
    (∃ cell1 : cacheCell, (Remove twoSteps4 1 0 1).1.cells[0]? = some cell1 ∧
      ∀ q, ({ seq := 1, pos := q } : seqCell) ∉ cell1.sequences) ∧
    (∃ cell1 : cacheCell, (Remove twoSteps4 1 0 1).1.cells[2]? = some cell1 ∧
      cell1.sequences[0]? = some
        { seq := 1, pos := wrap (1 - (min 1 (SeqMap.get twoSteps4.seqNextPos 1) - 0)) }) ∧
    wrap (1 - (min 1 (SeqMap.get twoSteps4.seqNextPos 1) - 0)) = 0 :=
  have h0 := Remove_drops_range twoSteps4 1 0 1 0 { sequences := [{ seq := 1, pos := 0 }] } 0
    { seq := 1, pos := 0 } (by decide) (by decide)
  have h2 := Remove_drops_range twoSteps4 1 0 1 2 { sequences := [{ seq := 1, pos := 1 }] } 0
    { seq := 1, pos := 1 } (by decide) (by decide)
  ⟨by decide, by decide, by decide, by decide,
    h0.elim (fun cell1 hc => ⟨cell1, hc.1, hc.2.1 (by decide)⟩),
    h2.elim (fun cell1 hc => ⟨cell1, hc.1, hc.2.2 (by decide) (by decide)⟩),
    by decide⟩

theorem filter_set_of_false (P : seqCell → Bool) :
    ∀ (l : List seqCell) (k : Nat) (s x : seqCell), l[k]? = some s → P s = false →
      P x = false → (l.set k x).filter P = l.filter P := by
  intro l
  induction l with
  | nil => intro k s x h; simp at h
  | cons a rest ih =>
    intro k s x h hs hx
    cases k with
    | zero =>
      simp only [List.getElem?_cons_zero, Option.some.injEq] at h
      subst h
      simp [List.filter_cons, hs, hx]
    | succ k =>
      simp only [List.getElem?_cons_succ] at h
      simp [List.filter_cons, ih k s x h hs hx]

theorem removeCell_others (seq b e off : Int) (cell : cacheCell) :
    (removeCell seq b e off cell).sequences.filter (fun s => decide (s.seq ≠ seq))
      = cell.sequences.filter (fun s => decide (s.seq ≠ seq)) := by
  unfold removeCell
  cases hf : cell.findSeq seq with
  | none => rfl
  | some ks =>
    obtain ⟨k, s⟩ := ks
    obtain ⟨hk, hseq, _, _⟩ := findSeq_some cell seq k s hf
    simp only
    split
    · simp only [List.filter_filter]
      congr 1
      funext t
      by_cases ht : t.seq = seq <;> simp [ht]
    · split
      · exact filter_set_of_false _ _ k s _ hk (by simp [hseq]) (by simp [hseq])
      · rfl

theorem removeCell_free_iff (seq b e off : Int) (cell : cacheCell) :
    (removeCell seq b e off cell).sequences = [] ↔
      (cell.sequences = [] ∨
        ((∀ s ∈ cell.sequences, s.seq = seq) ∧
          ∃ k s, cell.findSeq seq = some (k, s) ∧ b ≤ s.pos ∧ s.pos < e)) := by
  unfold removeCell
  cases hf : cell.findSeq seq with
  | none => simp
  | some ks =>
    obtain ⟨k, s⟩ := ks
    obtain ⟨hk, hseq, hmem, _⟩ := findSeq_some cell seq k s hf
    have hne : cell.sequences ≠ [] := List.ne_nil_of_mem hmem
    simp only [Option.some.injEq, Prod.mk.injEq, exists_and_left]
    by_cases hin : s.pos ≥ b ∧ s.pos < e
    · rw [if_pos hin]
      simp only [List.filter_eq_nil_iff, Bool.not_eq_true', decide_eq_false_iff_not, not_not, hne,
        false_or]
      constructor
      · intro h
        exact ⟨h, k, s, ⟨rfl, rfl⟩, hin.1, hin.2⟩
      · intro h; exact h.1
    · rw [if_neg hin]
      have hrhs : ¬ (cell.sequences = [] ∨
          ((∀ s ∈ cell.sequences, s.seq = seq) ∧
            ∃ x x_1, (k = x ∧ s = x_1) ∧ b ≤ x_1.pos ∧ x_1.pos < e)) := by
        rintro (h | ⟨_, x, y, ⟨_, hy⟩, h1, h2⟩)
        · exact hne h
        · subst hy; exact hin ⟨h1, h2⟩
      simp only [hrhs, iff_false]
      split
      · intro h
        have := congrArg List.length h
        simp only [List.length_set, List.length_nil] at this
        exact hne (List.length_eq_zero.1 this)
      · exact hne

/-- C6: `Remove(seq, begin, end)` leaves the associations of every sequence
other than `seq` unchanged in every cell (same pairs, same order) and leaves the
next positions of all other sequences unchanged; a cell is free afterwards
exactly when it was free before or all its associations belonged to `seq` and
were dropped; so a cell that holds an association of another sequence (an alias
made by `Copy`) is not freed and lies in no run returned by `findStartPos`. -/
theorem Remove_frame (c : Simple) (seq b e : Int) :
    (Remove c seq b e).1.cells.length = c.cells.length ∧
    (∀ (i : Nat) (cell : cacheCell), c.cells[i]? = some cell →
      ∃ cell1 : cacheCell, (Remove c seq b e).1.cells[i]? = some cell1 ∧
        cell1.sequences.filter (fun s => decide (s.seq ≠ seq))
          = cell.sequences.filter (fun s => decide (s.seq ≠ seq)) ∧
        (cell1.sequences = [] ↔
          (cell.sequences = [] ∨
            ((∀ s ∈ cell.sequences, s.seq = seq) ∧
              ∃ k s, cell.findSeq seq = some (k, s) ∧ b ≤ s.pos ∧
                s.pos < min e (SeqMap.get c.seqNextPos seq)))) ∧
        ((∃ s ∈ cell.sequences, s.seq ≠ seq) →
          cell1.sequences ≠ [] ∧
          ∀ (batch start : Nat),
            findStartPos { (Remove c seq b e).1 with curBatchSize := batch } = (start, none) →
            ¬ (start ≤ i ∧ i < start + batch))) ∧
    (∀ s, s ≠ seq →
      SeqMap.get (Remove c seq b e).1.seqNextPos s = SeqMap.get c.seqNextPos s) := by
  refine ⟨by simp [Remove], ?_, ?_⟩
  · intro i cell hi
    have hcell : (Remove c seq b e).1.cells[i]? = some
        (removeCell seq b (min e (SeqMap.get c.seqNextPos seq))
          (wrap (min e (SeqMap.get c.seqNextPos seq) - b)) cell) := by
      simp only [Remove, List.getElem?_map, hi, Option.map_some']
    refine ⟨_, hcell, removeCell_others _ _ _ _ _, removeCell_free_iff _ _ _ _ _, ?_⟩
    rintro ⟨s, hs, hne⟩
    have hnonempty : (removeCell seq b (min e (SeqMap.get c.seqNextPos seq))
        (wrap (min e (SeqMap.get c.seqNextPos seq) - b)) cell).sequences ≠ [] := by
      intro hnil
      have h1 : s ∈ cell.sequences.filter (fun s => decide (s.seq ≠ seq)) := by
        simp [List.mem_filter, hs, hne]
      rw [← removeCell_others seq b (min e (SeqMap.get c.seqNextPos seq))
        (wrap (min e (SeqMap.get c.seqNextPos seq) - b)) cell, hnil] at h1
      simp at h1
    refine ⟨hnonempty, ?_⟩
    intro batch start hfind hrange
    have hrun := (((findStartPos_run _).1 start).1 hfind).1
    have hfree := hrun.2 (i - start) (by simp only []; omega)
    have e1 : start + (i - start) = i := by omega
    simp only [e1] at hfree
    rw [hcell] at hfree
    simp only [Option.map_some', Option.some.injEq] at hfree
    exact hnonempty hfree
  · intro s hs
    simp [Remove, SeqMap.get_set, hs]

theorem Remove_frame_witness :
    Copy twoSteps4 1 3 0 2 = forked4 ∧
    (∃ cell1 : cacheCell, (Remove forked4 1 0 2).1.cells[0]? = some cell1 ∧
      cell1.sequences.filter (fun s => decide (s.seq ≠ 1)) = [{ seq := 3, pos := 0 }] ∧
      cell1.sequences ≠ [] ∧
      ∀ (batch start : Nat),
        findStartPos { (Remove forked4 1 0 2).1 with curBatchSize := batch } = (start, none) →
        ¬ (start ≤ 0 ∧ 0 < start + batch)) ∧
    SeqMap.get (Remove forked4 1 0 2).1.seqNextPos 3 = 2 :=
  have h := Remove_frame forked4 1 0 2
  ⟨by decide,
    (h.2.1 0 { sequences := [{ seq := 1, pos := 0 }, { seq := 3, pos := 0 }] }
      (by decide)).elim
      (fun cell1 hc => ⟨cell1, hc.1, hc.2.1,
        hc.2.2.2 ⟨{ seq := 3, pos := 0 }, by decide, by decide⟩⟩),
    h.2.2 3 (by decide)⟩

/-! ## `Copy` -/

theorem findSeqFrom_append (seq : Int) :
    ∀ (l l2 : List seqCell) (i : Nat),
      findSeqFrom seq (l ++ l2) i =
        match findSeqFrom seq l i with
        | some r => some r
        | none => findSeqFrom seq l2 (i + l.length) := by
  intro l
  induction l with
  | nil => intro l2 i; simp [findSeqFrom]
  | cons a rest ih =>
    intro l2 i
    simp only [List.cons_append, findSeqFrom]
    by_cases h : a.seq = seq
    · simp [h]
    · simp only [h, if_false, List.length_cons]
      have : i + (rest.length + 1) = i + 1 + rest.length := by omega
      rw [this]
      exact ih l2 (i + 1)

theorem copyAppend_cases (src dst b e : Int) (cell : cacheCell) :
    ((∃ k s, cell.findSeq src = some (k, s) ∧ b ≤ s.pos ∧ s.pos < e ∧
        (copyAppend src dst b e cell).sequences
          = cell.sequences ++ [{ seq := dst, pos := s.pos }]) ∨
      ((¬ ∃ k s, cell.findSeq src = some (k, s) ∧ b ≤ s.pos ∧ s.pos < e) ∧
        copyAppend src dst b e cell = cell)) := by
  unfold copyAppend
  cases hf : cell.findSeq src with
  | none => right; simp
  | some ks =>
    obtain ⟨k, s⟩ := ks
    simp only
    by_cases hin : s.pos ≥ b ∧ s.pos < e
    · left
      rw [if_pos hin]
      exact ⟨k, s, rfl, hin.1, hin.2, rfl⟩
    · right
      rw [if_neg hin]
      refine ⟨?_, rfl⟩
      rintro ⟨k1, s1, h1, h2, h3⟩
      simp only [Option.some.injEq, Prod.mk.injEq] at h1
      rw [← h1.2] at h2 h3
      exact hin ⟨h2, h3⟩

theorem copyShift_map_seq (dst e off : Int) (cell : cacheCell) :
    (copyShift dst e off cell).sequences.map seqCell.seq = cell.sequences.map seqCell.seq := by
  unfold copyShift
  cases hf : cell.findSeq dst with
  | none => rfl
  | some ks =>
    obtain ⟨k, s⟩ := ks
    simp only
    split
    · exact map_seq_set_pos _ k s _ (findSeq_some cell dst k s hf).1
    · rfl

theorem copyShift_others (dst e off : Int) (cell : cacheCell) :
    (copyShift dst e off cell).sequences.filter (fun s => decide (s.seq ≠ dst))
      = cell.sequences.filter (fun s => decide (s.seq ≠ dst)) := by
  unfold copyShift
  cases hf : cell.findSeq dst with
  | none => rfl
  | some ks =>
    obtain ⟨k, s⟩ := ks
    obtain ⟨hk, hseq, _, _⟩ := findSeq_some cell dst k s hf
    simp only
    split
    · exact filter_set_of_false _ _ k s _ hk (by simp [hseq]) (by simp [hseq])
    · rfl

theorem copyAppend_others (src dst b e : Int) (cell : cacheCell) :
    (copyAppend src dst b e cell).sequences.filter (fun s => decide (s.seq ≠ dst))
      = cell.sequences.filter (fun s => decide (s.seq ≠ dst)) := by
  rcases copyAppend_cases src dst b e cell with ⟨k, s, _, _, _, h⟩ | ⟨_, h⟩
  · rw [h]; simp [List.filter_append, List.filter_cons]
  · rw [h]

theorem copyCell_others (src dst b e off : Int) (cell : cacheCell) :
    (copyCell src dst b e off cell).sequences.filter (fun s => decide (s.seq ≠ dst))
      = cell.sequences.filter (fun s => decide (s.seq ≠ dst)) := by
  unfold copyCell
  rw [copyShift_others, copyAppend_others]

theorem copyShift_keeps_below (dst e off : Int) (cell : cacheCell) (j : Nat) (x : seqCell)
    (hx : cell.sequences[j]? = some x) (hlt : x.seq = dst → x.pos < e) :
    (copyShift dst e off cell).sequences[j]? = some x := by
  unfold copyShift
  cases hf : cell.findSeq dst with
  | none => exact hx
  | some ks =>
    obtain ⟨k, s⟩ := ks
    obtain ⟨hk, hseq, _, _⟩ := findSeq_some cell dst k s hf
    simp only
    split
    · rename_i hge
      by_cases hjk : k = j
      · subst hjk
        rw [hk] at hx
        simp only [Option.some.injEq] at hx
        subst hx
        have := hlt hseq
        omega
      · simp only
        rw [List.getElem?_set_ne hjk]
        exact hx
    · exact hx

theorem copyShift_moves (dst e off : Int) (cell : cacheCell) (k : Nat) (s : seqCell)
    (hf : cell.findSeq dst = some (k, s)) (hge : e ≤ s.pos) :
    (copyShift dst e off cell).sequences[k]? =
      some { seq := dst, pos := wrap (s.pos + off) } := by
  obtain ⟨hk, hseq, _, _⟩ := findSeq_some cell dst k s hf
  unfold copyShift
  rw [hf]
  simp only [ge_iff_le, hge, if_true]
  rw [List.getElem?_set_self (List.getElem?_eq_some.1 hk).1, hseq]

theorem findSeq_copyAppend (src dst b e : Int) (cell : cacheCell) (seq : Int) (k : Nat)
    (s : seqCell) (hf : cell.findSeq seq = some (k, s)) :
    (copyAppend src dst b e cell).findSeq seq = some (k, s) := by
  rcases copyAppend_cases src dst b e cell with ⟨_, _, _, _, _, h⟩ | ⟨_, h⟩
  · unfold cacheCell.findSeq at hf ⊢
    rw [h, findSeqFrom_append, hf]
  · rw [h]; exact hf

theorem Copy_cells_getElem (c : Simple) (src dst b e : Int) (i : Nat) (cell : cacheCell)
    (hi : c.cells[i]? = some cell) :
    (Copy c src dst b e).cells[i]? = some
      (copyCell src dst b (min e (SeqMap.get c.seqNextPos src))
        (wrap (min e (SeqMap.get c.seqNextPos src) - b)) cell) := by
  simp only [Copy, List.getElem?_map, hi, Option.map_some']

theorem Copy_nextPos_dst (c : Simple) (src dst b e : Int) :
    SeqMap.get (Copy c src dst b e).seqNextPos dst
      = wrap (SeqMap.get c.seqNextPos dst + (min e (SeqMap.get c.seqNextPos src) - b)) := by
  simp only [Copy, SeqMap.get_set, if_true, wrap_add_wrap_right]

/-- C7 as stated fails where the offset overflows: on a fresh capacity-4 cache
`Copy(1, 2, MinInt64, 0)` has `e' = 0` and stores `seqNextPos[2] = -2^63`, not
`seqNextPos[2] + (e' - begin) = 2^63`. -/
theorem Copy_effect_counterexample :
    NewSimpleCache 4 = Run.ret fresh4 ∧ CellInv fresh4 ∧ (1 : Int) ≠ 2 ∧
    SeqMap.get (Copy fresh4 1 2 (-9223372036854775808) 0).seqNextPos 2
      = -9223372036854775808 ∧
    SeqMap.get fresh4.seqNextPos 2
        + (min 0 (SeqMap.get fresh4.seqNextPos 1) - (-9223372036854775808))
      = 9223372036854775808 ∧
    SeqMap.get (Copy fresh4 1 2 (-9223372036854775808) 0).seqNextPos 2 ≠
      SeqMap.get fresh4.seqNextPos 2
        + (min 0 (SeqMap.get fresh4.seqNextPos 1) - (-9223372036854775808)) := by
  decide

/-- C7 (amended): in a state where each cell holds at most one association per
sequence id, with `e' = min(end, seqNextPos[src])`, after
`Copy(src, dst, begin, end)` every cell that held `(src, p)` with `begin ≤ p < e'`
also holds `(dst, p)`; every association `(dst, q)` with `q ≥ e'` that existed
before is now `(dst, q + (e' - begin))` at the same place in its cell; the
associations of all sequences other than `dst` are unchanged in every cell;
`seqNextPos[dst]` has increased by `e' - begin`; these two sums are reduced to 64
bits with wrap-around; `size` and every other next position are unchanged.  (The
hypothesis `src ≠ dst` of the claim is not needed.) -/
theorem Copy_effect (c : Simple) (src dst b e : Int) (hinv : CellInv c) :
    (Copy c src dst b e).cells.length = c.cells.length ∧
    (∀ (i : Nat) (cell : cacheCell), c.cells[i]? = some cell →
      ∃ cell1 : cacheCell, (Copy c src dst b e).cells[i]? = some cell1 ∧
        (∀ p, ({ seq := src, pos := p } : seqCell) ∈ cell.sequences →
          b ≤ p → p < min e (SeqMap.get c.seqNextPos src) →
          ({ seq := dst, pos := p } : seqCell) ∈ cell1.sequences) ∧
        (∀ q, ({ seq := dst, pos := q } : seqCell) ∈ cell.sequences →
          min e (SeqMap.get c.seqNextPos src) ≤ q →
          ∃ k : Nat, cell.sequences[k]? = some ({ seq := dst, pos := q } : seqCell) ∧
            cell1.sequences[k]? = some
              ({ seq := dst,
                 pos := wrap (q + (min e (SeqMap.get c.seqNextPos src) - b)) } : seqCell)) ∧
        cell1.sequences.filter (fun s => decide (s.seq ≠ dst))
          = cell.sequences.filter (fun s => decide (s.seq ≠ dst))) ∧
    SeqMap.get (Copy c src dst b e).seqNextPos dst
      = wrap (SeqMap.get c.seqNextPos dst + (min e (SeqMap.get c.seqNextPos src) - b)) ∧
    (Copy c src dst b e).size = c.size ∧
    (∀ s, s ≠ dst → SeqMap.get (Copy c src dst b e).seqNextPos s = SeqMap.get c.seqNextPos s) := by
  refine ⟨by simp [Copy], ?_, Copy_nextPos_dst c src dst b e, rfl, ?_⟩
  · intro i cell hi
    have hnd := hinv cell (List.getElem?_mem hi)
    refine ⟨_, Copy_cells_getElem c src dst b e i cell hi, ?_, ?_, copyCell_others _ _ _ _ _ _⟩
    · intro p hp hb he
      obtain ⟨k, t, hf⟩ := findSeq_isSome_of_mem cell src _ hp rfl
      have ht := findSeq_unique cell src k t _ hnd hf hp rfl
      subst ht
      rcases copyAppend_cases src dst b (min e (SeqMap.get c.seqNextPos src)) cell with
        ⟨k1, s1, h1, _, _, happ⟩ | ⟨hno, _⟩
      · rw [hf] at h1
        simp only [Option.some.injEq, Prod.mk.injEq] at h1
        rw [← h1.2] at happ
        have hidx : (copyAppend src dst b (min e (SeqMap.get c.seqNextPos src)) cell).sequences[
            cell.sequences.length]? = some { seq := dst, pos := p } := by
          rw [happ, List.getElem?_append_right (le_refl _)]; simp
        unfold copyCell
        exact List.getElem?_mem (copyShift_keeps_below _ _ _ _ _ _ hidx (fun _ => he))
      · exact absurd ⟨k, _, hf, hb, he⟩ hno
    · intro q hq hge
      obtain ⟨k, t, hf⟩ := findSeq_isSome_of_mem cell dst _ hq rfl
      have ht := findSeq_unique cell dst k t _ hnd hf hq rfl
      subst ht
      refine ⟨k, (findSeq_some cell dst k _ hf).1, ?_⟩
      unfold copyCell
      have := copyShift_moves dst (min e (SeqMap.get c.seqNextPos src))
        (wrap (min e (SeqMap.get c.seqNextPos src) - b))
        (copyAppend src dst b (min e (SeqMap.get c.seqNextPos src)) cell) k
        { seq := dst, pos := q }
        (findSeq_copyAppend src dst b _ cell dst k _ hf) hge
      rw [wrap_add_wrap_right] at this
      exact this
  · intro s hs
    simp [Copy, SeqMap.get_set, hs]

theorem Copy_effect_witness :
    NewSimpleCache 4 = Run.ret fresh4 ∧
    StartForward fresh4 [1, 2] = Run.ret (oneStep4, none) ∧
    StartForward oneStep4 [1, 2] = Run.ret (twoSteps4, none) ∧
    CellInv twoSteps4 ∧
    Copy twoSteps4 1 3 0 2 = forked4 ∧
    (∃ cell1 : cacheCell, (Copy twoSteps4 1 3 0 2).cells[0]? = some cell1 ∧
      ({ seq := 1, pos := 0 } : seqCell) ∈ cell1.sequences ∧
      ({ seq := 3, pos := 0 } : seqCell) ∈ cell1.sequences) ∧
    (∃ cell1 : cacheCell, (Copy twoSteps4 1 3 0 2).cells[2]? = some cell1 ∧
      ({ seq := 1, pos := 1 } : seqCell) ∈ cell1.sequences ∧
      ({ seq := 3, pos := 1 } : seqCell) ∈ cell1.sequences) ∧
    SeqMap.get (Copy twoSteps4 1 3 0 2).seqNextPos 3 = 2 ∧
    (Copy twoSteps4 1 3 0 2).size = twoSteps4.size :=
  have h := Copy_effect twoSteps4 1 3 0 2 (by decide)
  ⟨by decide, by decide, by decide, by decide, by decide,
    (h.2.1 0 { sequences := [{ seq := 1, pos := 0 }] } (by decide)).elim
      (fun cell1 hc => ⟨cell1, hc.1,
        List.mem_of_mem_filter
          (hc.2.2.2 ▸ (by decide :
            ({ seq := 1, pos := 0 } : seqCell) ∈
              ([{ seq := 1, pos := 0 }] : List seqCell).filter (fun s : seqCell => decide (s.seq ≠ 3)))),
        hc.2.1 0 (by decide) (by decide) (by decide)⟩),
    (h.2.1 2 { sequences := [{ seq := 1, pos := 1 }] } (by decide)).elim
      (fun cell1 hc => ⟨cell1, hc.1,
        List.mem_of_mem_filter
          (hc.2.2.2 ▸ (by decide :
            ({ seq := 1, pos := 1 } : seqCell) ∈
              ([{ seq := 1, pos := 1 }] : List seqCell).filter (fun s : seqCell => decide (s.seq ≠ 3)))),
        hc.2.1 1 (by decide) (by decide) (by decide)⟩),
    h.2.2.1, h.2.2.2.1⟩

theorem mem_copyAppend (src dst b e : Int) (cell : cacheCell) (x : seqCell) :
    x ∈ (copyAppend src dst b e cell).sequences ↔
      (x ∈ cell.sequences ∨
        ∃ k s, cell.findSeq src = some (k, s) ∧ b ≤ s.pos ∧ s.pos < e ∧
          x = { seq := dst, pos := s.pos }) := by
  rcases copyAppend_cases src dst b e cell with ⟨k, s, hf, hb, he, h⟩ | ⟨hno, h⟩
  · rw [h]
    simp only [List.mem_append, List.mem_singleton]
    constructor
    · rintro (hx | hx)
      · exact Or.inl hx
      · exact Or.inr ⟨k, s, hf, hb, he, hx⟩
    · rintro (hx | ⟨k1, s1, hf1, _, _, hx⟩)
      · exact Or.inl hx
      · rw [hf] at hf1
        simp only [Option.some.injEq, Prod.mk.injEq] at hf1
        rw [← hf1.2] at hx
        exact Or.inr hx
  · rw [h]
    constructor
    · intro hx; exact Or.inl hx
    · rintro (hx | ⟨k1, s1, hf1, hb1, he1, _⟩)
      · exact hx
      · exact absurd ⟨k1, s1, hf1, hb1, he1⟩ hno

theorem copyShift_id (dst e off : Int) (cell : cacheCell)
    (h : ∀ x ∈ cell.sequences, x.seq = dst → x.pos < e) : copyShift dst e off cell = cell := by
  unfold copyShift
  cases hf : cell.findSeq dst with
  | none => rfl
  | some ks =>
    obtain ⟨k, s⟩ := ks
    obtain ⟨_, hseq, hmem, _⟩ := findSeq_some cell dst k s hf
    have := h s hmem hseq
    simp only
    rw [if_neg (by omega)]

theorem copyCell_of_fresh (src dst b e off : Int) (cell : cacheCell)
    (hfresh : ∀ s ∈ cell.sequences, s.seq ≠ dst) :
    copyCell src dst b e off cell = copyAppend src dst b e cell := by
  unfold copyCell
  apply copyShift_id
  intro x hx hseq
  rcases (mem_copyAppend src dst b e cell x).1 hx with hx | ⟨k, s, _, _, he, hx⟩
  · exact absurd hseq (hfresh x hx)
  · rw [hx]; exact he

theorem findSeq_copyAppend_ne (src dst b e : Int) (cell : cacheCell) (seq : Int)
    (hne : seq ≠ dst) :
    (copyAppend src dst b e cell).findSeq seq = cell.findSeq seq := by
  rcases copyAppend_cases src dst b e cell with ⟨_, s, _, _, _, h⟩ | ⟨_, h⟩
  · unfold cacheCell.findSeq
    rw [h, findSeqFrom_append]
    cases hf : findSeqFrom seq cell.sequences 0 with
    | some r => rfl
    | none =>
      have : ¬ dst = seq := fun e => hne e.symm
      simp [findSeqFrom, this]
  · rw [h]

theorem findSeq_range_iff (cell : cacheCell) (src b e p : Int)
    (hnd : (cell.sequences.map seqCell.seq).Nodup) :
    (∃ k s, cell.findSeq src = some (k, s) ∧ b ≤ s.pos ∧ s.pos < e ∧ s.pos = p) ↔
      (({ seq := src, pos := p } : seqCell) ∈ cell.sequences ∧ b ≤ p ∧ p < e) := by
  constructor
  · rintro ⟨k, s, hf, hb, he, hp⟩
    obtain ⟨_, hseq, hmem, _⟩ := findSeq_some cell src k s hf
    have : ({ seq := src, pos := p } : seqCell) = s := by
      cases s; simp at hseq hp ⊢; exact ⟨hseq.symm, hp.symm⟩
    rw [this]
    subst hp
    exact ⟨hmem, hb, he⟩
  · rintro ⟨hmem, hb, he⟩
    obtain ⟨k, t, hf⟩ := findSeq_isSome_of_mem cell src _ hmem rfl
    have ht := findSeq_unique cell src k t _ hnd hf hmem rfl
    subst ht
    exact ⟨k, _, hf, hb, he, rfl⟩

theorem Copy_nextPos_other (c : Simple) (src dst b e s : Int) (hs : s ≠ dst) :
    SeqMap.get (Copy c src dst b e).seqNextPos s = SeqMap.get c.seqNextPos s := by
  simp [Copy, SeqMap.get_set, hs]

/-- C8: in a state where each cell holds at most one association per sequence
id, for distinct destinations `d1`, `d2`, both different from `src`, that hold no
association and have next position 0: after `Copy(src, d1, b, e)` followed by
`Copy(src, d2, b, e)` each cell holds `(d1, p)` iff it holds `(d2, p)` iff it held
`(src, p)` with `b ≤ p < min(e, seqNextPos[src])`; the next positions of `d1` and
`d2` are equal; and the second `Copy` leaves every association of every sequence
other than `d2` (so those of `d1` and of `src`) and the next positions of `d1` and
`src` unchanged. -/
theorem Copy_two_destinations (c : Simple) (src d1 d2 b e : Int) (hinv : CellInv c)
    (h12 : d1 ≠ d2) (h1 : d1 ≠ src) (h2 : d2 ≠ src)
    (hf1 : ∀ cell ∈ c.cells, ∀ s ∈ cell.sequences, s.seq ≠ d1)
    (hf2 : ∀ cell ∈ c.cells, ∀ s ∈ cell.sequences, s.seq ≠ d2)
    (hn1 : SeqMap.get c.seqNextPos d1 = 0) (hn2 : SeqMap.get c.seqNextPos d2 = 0) :
    (∀ (i : Nat) (cell : cacheCell), c.cells[i]? = some cell →
      ∃ cell2 : cacheCell,
        (Copy (Copy c src d1 b e) src d2 b e).cells[i]? = some cell2 ∧
        ∀ p : Int,
          ((({ seq := d1, pos := p } : seqCell) ∈ cell2.sequences ↔
              ({ seq := d2, pos := p } : seqCell) ∈ cell2.sequences) ∧
            (({ seq := d2, pos := p } : seqCell) ∈ cell2.sequences ↔
              (({ seq := src, pos := p } : seqCell) ∈ cell.sequences ∧ b ≤ p ∧
                p < min e (SeqMap.get c.seqNextPos src))))) ∧
    SeqMap.get (Copy (Copy c src d1 b e) src d2 b e).seqNextPos d1
      = SeqMap.get (Copy (Copy c src d1 b e) src d2 b e).seqNextPos d2 ∧
    (∀ (i : Nat) (cell1 : cacheCell), (Copy c src d1 b e).cells[i]? = some cell1 →
      ∃ cell2 : cacheCell,
        (Copy (Copy c src d1 b e) src d2 b e).cells[i]? = some cell2 ∧
        cell2.sequences.filter (fun s => decide (s.seq ≠ d2))
          = cell1.sequences.filter (fun s => decide (s.seq ≠ d2))) ∧
    SeqMap.get (Copy (Copy c src d1 b e) src d2 b e).seqNextPos d1
      = SeqMap.get (Copy c src d1 b e).seqNextPos d1 ∧
    SeqMap.get (Copy (Copy c src d1 b e) src d2 b e).seqNextPos src
      = SeqMap.get (Copy c src d1 b e).seqNextPos src := by
  have hsrc : SeqMap.get (Copy c src d1 b e).seqNextPos src = SeqMap.get c.seqNextPos src :=
    Copy_nextPos_other c src d1 b e src (fun h => h1 h.symm)
  refine ⟨?_, ?_, ?_, Copy_nextPos_other _ _ _ _ _ _ h12, Copy_nextPos_other _ _ _ _ _ _
    (fun h => h2 h.symm)⟩
  · intro i cell hi
    have hmem := List.getElem?_mem hi
    have hnd := hinv cell hmem
    have hc1 := Copy_cells_getElem c src d1 b e i cell hi
    rw [copyCell_of_fresh _ _ _ _ _ _ (hf1 cell hmem)] at hc1
    have hfresh2 : ∀ s ∈ (copyAppend src d1 b (min e (SeqMap.get c.seqNextPos src))
        cell).sequences, s.seq ≠ d2 := by
      intro s hs
      rcases (mem_copyAppend _ _ _ _ _ _).1 hs with hs | ⟨_, _, _, _, _, hs⟩
      · exact hf2 cell hmem s hs
      · rw [hs]; exact h12
    have hc2 := Copy_cells_getElem (Copy c src d1 b e) src d2 b e i _ hc1
    rw [hsrc, copyCell_of_fresh _ _ _ _ _ _ hfresh2] at hc2
    refine ⟨_, hc2, ?_⟩
    intro p
    have key1 : ({ seq := d1, pos := p } : seqCell) ∈
        (copyAppend src d2 b (min e (SeqMap.get c.seqNextPos src))
          (copyAppend src d1 b (min e (SeqMap.get c.seqNextPos src)) cell)).sequences ↔
        (({ seq := src, pos := p } : seqCell) ∈ cell.sequences ∧ b ≤ p ∧
          p < min e (SeqMap.get c.seqNextPos src)) := by
      rw [← findSeq_range_iff cell src b _ p hnd, mem_copyAppend, mem_copyAppend]
      constructor
      · rintro ((hx | ⟨k, s, hf, hb, he, hx⟩) | ⟨k, s, _, _, _, hx⟩)
        · exact absurd rfl (hf1 cell hmem _ hx)
        · simp only [seqCell.mk.injEq, true_and] at hx
          exact ⟨k, s, hf, hb, he, hx.symm⟩
        · simp only [seqCell.mk.injEq] at hx
          exact absurd hx.1 h12
      · rintro ⟨k, s, hf, hb, he, hp⟩
        exact Or.inl (Or.inr ⟨k, s, hf, hb, he, by rw [hp]⟩)
    have key2 : ({ seq := d2, pos := p } : seqCell) ∈
        (copyAppend src d2 b (min e (SeqMap.get c.seqNextPos src))
          (copyAppend src d1 b (min e (SeqMap.get c.seqNextPos src)) cell)).sequences ↔
        (({ seq := src, pos := p } : seqCell) ∈ cell.sequences ∧ b ≤ p ∧
          p < min e (SeqMap.get c.seqNextPos src)) := by
      rw [← findSeq_range_iff cell src b _ p hnd, mem_copyAppend,
        findSeq_copyAppend_ne src d1 b _ cell src (fun h => h1 h.symm)]
      constructor
      · rintro (hx | ⟨k, s, hf, hb, he, hx⟩)
        · exact absurd rfl (hfresh2 _ hx)
        · simp only [seqCell.mk.injEq, true_and] at hx
          exact ⟨k, s, hf, hb, he, hx.symm⟩
      · rintro ⟨k, s, hf, hb, he, hp⟩
        exact Or.inr ⟨k, s, hf, hb, he, by rw [hp]⟩
    exact ⟨key1.trans key2.symm, key2⟩
  · rw [Copy_nextPos_other _ _ _ _ _ _ h12]
    simp only [Copy, SeqMap.get_set, if_true]
    rw [if_neg (fun h => h12 h.symm), if_neg (fun h => h1 h.symm), hn1, hn2]
  · intro i cell1 hi
    exact ⟨_, Copy_cells_getElem _ src d2 b e i cell1 hi, copyCell_others _ _ _ _ _ _⟩

theorem Copy_two_destinations_witness :
    CellInv twoSteps4 ∧ (3 : Int) ≠ 4 ∧ (3 : Int) ≠ 1 ∧ (4 : Int) ≠ 1 ∧
    (∀ cell ∈ twoSteps4.cells, ∀ s ∈ cell.sequences, s.seq ≠ 3) ∧
    (∀ cell ∈ twoSteps4.cells, ∀ s ∈ cell.sequences, s.seq ≠ 4) ∧
    SeqMap.get twoSteps4.seqNextPos 3 = 0 ∧ SeqMap.get twoSteps4.seqNextPos 4 = 0 ∧
    (Copy (Copy twoSteps4 1 3 0 2) 1 4 0 2).cells =
      [{ sequences := [{ seq := 1, pos := 0 }, { seq := 3, pos := 0 }, { seq := 4, pos := 0 }] },
        { sequences := [{ seq := 2, pos := 0 }] },
        { sequences := [{ seq := 1, pos := 1 }, { seq := 3, pos := 1 }, { seq := 4, pos := 1 }] },
        { sequences := [{ seq := 2, pos := 1 }] }] ∧
    SeqMap.get (Copy (Copy twoSteps4 1 3 0 2) 1 4 0 2).seqNextPos 3
      = SeqMap.get (Copy (Copy twoSteps4 1 3 0 2) 1 4 0 2).seqNextPos 4 ∧
    SeqMap.get (Copy (Copy twoSteps4 1 3 0 2) 1 4 0 2).seqNextPos 3
      = SeqMap.get (Copy twoSteps4 1 3 0 2).seqNextPos 3 :=
  have h := Copy_two_destinations twoSteps4 1 3 4 0 2 (by decide) (by decide) (by decide)
    (by decide) (by decide) (by decide) (by decide) (by decide)
  ⟨by decide, by decide, by decide, by decide, by decide, by decide, by decide, by decide,
    by decide, h.2.1, h.2.2.2.1⟩

/-! ## The cell invariant along traces -/

theorem CellInv_fresh (capacity : Int) (c : Simple) (h : NewSimpleCache capacity = Run.ret c) :
    CellInv c := by
  unfold NewSimpleCache at h
  split at h
  · exact absurd h (by simp)
  · simp only [Run.ret.injEq] at h
    subst h
    intro cell hcell
    simp only [List.mem_replicate] at hcell
    rw [hcell.2]
    simp

theorem StartForward_cells (c c1 : Simple) (seqs : List Int)
    (h : StartForward c seqs = Run.ret (c1, none)) :
    ∀ (j : Nat) (cell : cacheCell), c1.cells[j]? = some cell →
      (c.cells[j]? = some cell ∨ ∃ seq pos, cell = { sequences := [{ seq := seq, pos := pos }] }) := by
  obtain ⟨start, c2, mask, _, ha, _, hc⟩ := StartForward_success c c1 seqs h
  obtain ⟨_, _, _, _, _, _, _, g8, g9, _, _⟩ := assignLoop_spec seqs 0 _ _ ha
  subst hc
  simp only [Nat.add_zero] at g8 g9
  intro j cell hj
  by_cases hout : j < start ∨ start + seqs.length ≤ j
  · left
    rw [← g8 j hout]; exact hj
  · right
    have hk : j - start < seqs.length := by omega
    have := g9 (j - start) seqs[j - start] (List.getElem?_eq_getElem hk)
    have e1 : start + (j - start) = j := by omega
    rw [e1] at this
    simp only at hj
    rw [this] at hj
    simp only [Option.some.injEq] at hj
    exact ⟨_, _, hj.symm⟩

theorem StartForward_CellInv (c c1 : Simple) (seqs : List Int)
    (h : StartForward c seqs = Run.ret (c1, none)) (hinv : CellInv c) : CellInv c1 := by
  intro cell hcell
  obtain ⟨j, hj⟩ := List.mem_iff_getElem?.1 hcell
  rcases StartForward_cells c c1 seqs h j cell hj with hold | ⟨seq, pos, hnew⟩
  · exact hinv cell (List.getElem?_mem hold)
  · rw [hnew]; simp

theorem removeCell_nodup (seq b e off : Int) (cell : cacheCell)
    (hnd : (cell.sequences.map seqCell.seq).Nodup) :
    ((removeCell seq b e off cell).sequences.map seqCell.seq).Nodup := by
  unfold removeCell
  cases hf : cell.findSeq seq with
  | none => exact hnd
  | some ks =>
    obtain ⟨k, s⟩ := ks
    simp only
    split
    · exact hnd.sublist ((List.filter_sublist _).map _)
    · split
      · rw [map_seq_set_pos _ k s _ (findSeq_some cell seq k s hf).1]; exact hnd
      · exact hnd

theorem Remove_CellInv (c : Simple) (seq b e : Int) (hinv : CellInv c) :
    CellInv (Remove c seq b e).1 := by
  intro cell hcell
  simp only [Remove, List.mem_map] at hcell
  obtain ⟨cell0, h0, hc⟩ := hcell
  rw [← hc]
  exact removeCell_nodup _ _ _ _ _ (hinv cell0 h0)

theorem copyCell_nodup (src dst b e off : Int) (cell : cacheCell)
    (hnd : (cell.sequences.map seqCell.seq).Nodup)
    (hguard : ∀ s ∈ cell.sequences, s.seq = src → b ≤ s.pos → s.pos < e →
      ∀ t ∈ cell.sequences, t.seq ≠ dst) :
    ((copyCell src dst b e off cell).sequences.map seqCell.seq).Nodup := by
  unfold copyCell
  rw [copyShift_map_seq]
  rcases copyAppend_cases src dst b e cell with ⟨k, s, hf, hb, he, h⟩ | ⟨_, h⟩
  · obtain ⟨_, hseq, hmem, _⟩ := findSeq_some cell src k s hf
    rw [h, List.map_append, List.nodup_append]
    refine ⟨hnd, by simp, ?_⟩
    intro x hx hx2
    simp only [List.map_cons, List.map_nil, List.mem_singleton] at hx2
    obtain ⟨t, ht, htx⟩ := List.mem_map.1 hx
    exact hguard s hmem hseq hb he t ht (htx.trans hx2)
  · rw [h]; exact hnd

theorem Copy_CellInv (c : Simple) (src dst b e : Int) (hinv : CellInv c)
    (hguard : copyGuard c src dst b e) : CellInv (Copy c src dst b e) := by
  intro cell hcell
  simp only [Copy, List.mem_map] at hcell
  obtain ⟨cell0, h0, hc⟩ := hcell
  rw [← hc]
  exact copyCell_nodup _ _ _ _ _ _ (hinv cell0 h0) (hguard cell0 h0)

theorem applyOp_startForward (c c1 : Simple) (seqs : List Int)
    (h : applyOp c (Op.startForward seqs) = some c1) :
    StartForward c seqs = Run.ret (c1, none) ∨
      c1 = { c with curBatchSize := seqs.length, curPos := 0 } := by
  simp only [applyOp] at h
  split at h
  · rename_i c2 err heq
    simp only [Option.some.injEq] at h
    subst h
    cases err with
    | none => exact Or.inl heq
    | some e => exact Or.inr ((StartForward_error c c2 seqs e).1 heq).2.2.2
  · exact absurd h (by simp)

theorem Reach_CellInv (adm : Simple → Op → Prop)
    (hadm : ∀ c src dst b e, adm c (Op.copy src dst b e) → copyGuard c src dst b e) :
    ∀ c, Reach adm c → CellInv c := by
  intro c h
  induction h with
  | fresh capacity c h => exact CellInv_fresh capacity c h
  | step c op c1 _ ha hstep ih =>
    cases op with
    | startForward seqs =>
      rcases applyOp_startForward c c1 seqs hstep with hs | hs
      · exact StartForward_CellInv c c1 seqs hs ih
      · subst hs; exact ih
    | copy src dst b e =>
      simp only [applyOp, Option.some.injEq] at hstep
      rw [← hstep]
      exact Copy_CellInv c src dst b e ih (hadm c src dst b e ha)
    | remove seq b e =>
      simp only [applyOp, Option.some.injEq] at hstep
      rw [← hstep]
      exact Remove_CellInv c seq b e ih

theorem Reach_twoSteps4 (adm : Simple → Op → Prop)
    (h1 : adm fresh4 (Op.startForward [1, 2])) (h2 : adm oneStep4 (Op.startForward [1, 2])) :
    Reach adm twoSteps4 :=
  Reach.step oneStep4 (Op.startForward [1, 2]) twoSteps4
    (Reach.step fresh4 (Op.startForward [1, 2]) oneStep4
      (Reach.fresh 4 fresh4 (by decide)) h1 (by decide))
    h2 (by decide)

theorem Reach_forked4 (adm : Simple → Op → Prop)
    (h1 : adm fresh4 (Op.startForward [1, 2])) (h2 : adm oneStep4 (Op.startForward [1, 2]))
    (h3 : adm twoSteps4 (Op.copy 1 3 0 2)) :
    Reach adm forked4 :=
  Reach.step twoSteps4 (Op.copy 1 3 0 2) forked4 (Reach_twoSteps4 adm h1 h2) h3 (by decide)

/-- C9 as stated fails: after the two steps of the scenario, calling
`Copy(1, 3, 0, 2)` twice leaves cell 0 holding sequence 3 twice. -/
theorem cell_invariant_counterexample :
    Reach distinctBatches (Copy forked4 1 3 0 2) ∧
    (Copy forked4 1 3 0 2).cells[0]? = some
      { sequences := [{ seq := 1, pos := 0 }, { seq := 3, pos := 0 }, { seq := 3, pos := 0 }] } ∧
    ¬ CellInv (Copy forked4 1 3 0 2) :=
  ⟨Reach.step forked4 (Op.copy 1 3 0 2) (Copy forked4 1 3 0 2)
      (Reach_forked4 distinctBatches (by show ([1, 2] : List Int).Nodup; decide)
        (by show ([1, 2] : List Int).Nodup; decide) trivial)
      trivial rfl,
    by decide, by decide⟩

/-- C9 (amended): in every state reachable from a fresh cache by `StartForward`
calls that return (pairwise distinct ids per batch), `Remove` calls, and
`Copy(src, dst, b, e)` calls made when no cell that holds `src` at a position in
`[b, min(e, seqNextPos[src]))` already holds `dst`, every cell holds at most one
pair per distinct sequence id. -/
theorem cell_invariant_reachable (c : Simple) (h : Reach guardedCalls c) : CellInv c :=
  Reach_CellInv guardedCalls (fun _ _ _ _ _ ha => ha) c h

theorem cell_invariant_reachable_witness :
    Reach guardedCalls forked4 ∧ CellInv forked4 :=
  have hr : Reach guardedCalls forked4 :=
    Reach_forked4 guardedCalls (by show ([1, 2] : List Int).Nodup; decide)
      (by show ([1, 2] : List Int).Nodup; decide)
      (by show copyGuard twoSteps4 1 3 0 2; decide)
  ⟨hr, cell_invariant_reachable forked4 hr⟩

/-! ## `size` along traces without `Copy` -/

theorem positionsOf_replicate_free (s : Int) (n : Nat) :
    positionsOf s (List.replicate n ({ sequences := [] } : cacheCell)) = [] := by
  induction n with
  | zero => rfl
  | succ n ih => simp [List.replicate_succ, positionsOf, ih]

theorem live_replicate_free (n : Nat) :
    ((List.replicate n ({ sequences := [] } : cacheCell)).map
      (fun cell => cell.sequences.length)).sum = 0 := by
  induction n with
  | zero => rfl
  | succ n ih => simp [List.replicate_succ, ih]

theorem Contiguous_fresh (capacity : Int) (c : Simple)
    (h : NewSimpleCache capacity = Run.ret c) : Contiguous c := by
  unfold NewSimpleCache at h
  split at h
  · exact absurd h (by simp)
  · simp only [Run.ret.injEq] at h
    subst h
    refine ⟨?_, ?_, ?_, ?_⟩
    · intro cell hcell
      simp only [List.mem_replicate] at hcell
      rw [hcell.2]; simp
    · intro s; simp [SeqMap.get_empty]
    · intro s
      simp only [positionsOf_replicate_free, SeqMap.get_empty]
      refine ⟨List.nodup_nil, ?_⟩
      intro p
      simp only [List.not_mem_nil, false_iff]
      omega
    · simp [liveAssociations, live_replicate_free]

theorem positionsOf_set_free (s : Int) (x : seqCell) :
    ∀ (cells : List cacheCell) (k : Nat) (cell : cacheCell), cells[k]? = some cell →
      cell.sequences = [] →
      List.Perm (positionsOf s (cells.set k { sequences := [x] }))
        ((if x.seq = s then [x.pos] else []) ++ positionsOf s cells) := by
  intro cells
  induction cells with
  | nil => intro k cell h; simp at h
  | cons a rest ih =>
    intro k cell h hfree
    cases k with
    | zero =>
      simp only [List.getElem?_cons_zero, Option.some.injEq] at h
      subst h
      simp only [List.set_cons_zero, positionsOf, hfree, List.filter_nil, List.map_nil,
        List.nil_append]
      by_cases hx : x.seq = s
      · simp [hx, List.filter_cons]
      · simp [hx, List.filter_cons]
    | succ k =>
      simp only [List.getElem?_cons_succ] at h
      simp only [List.set_cons_succ, positionsOf]
      exact ((ih k cell h hfree).append_left _).trans (List.perm_append_comm_assoc _ _ _)

theorem live_set_free (x : seqCell) :
    ∀ (cells : List cacheCell) (k : Nat) (cell : cacheCell), cells[k]? = some cell →
      cell.sequences = [] →
      ((cells.set k { sequences := [x] }).map (fun cell => cell.sequences.length)).sum
        = (cells.map (fun cell => cell.sequences.length)).sum + 1 := by
  intro cells
  induction cells with
  | nil => intro k cell h; simp at h
  | cons a rest ih =>
    intro k cell h hfree
    cases k with
    | zero =>
      simp only [List.getElem?_cons_zero, Option.some.injEq] at h
      subst h
      simp [hfree]
      omega
    | succ k =>
      simp only [List.getElem?_cons_succ] at h
      simp only [List.set_cons_succ, List.map_cons, List.sum_cons, ih k cell h hfree]
      omega

theorem positionsOf_length_le (s : Int) :
    ∀ (cells : List cacheCell),
      (positionsOf s cells).length ≤ (cells.map (fun cell => cell.sequences.length)).sum := by
  intro cells
  induction cells with
  | nil => simp [positionsOf]
  | cons a rest ih =>
    simp only [positionsOf, List.length_append, List.length_map, List.map_cons, List.sum_cons]
    have := List.length_filter_le (fun s1 : seqCell => decide (s1.seq = s)) a.sequences
    omega

theorem live_le_length :
    ∀ (cells : List cacheCell), (∀ cell ∈ cells, cell.sequences.length ≤ 1) →
      (cells.map (fun cell => cell.sequences.length)).sum ≤ cells.length := by
  intro cells
  induction cells with
  | nil => intro _; simp
  | cons a rest ih =>
    intro h
    have h1 := h a (by simp)
    have h2 := ih (fun cell hc => h cell (by simp [hc]))
    simp only [List.map_cons, List.sum_cons, List.length_cons]
    omega

theorem range_length (l : List Int) (n : Int) (hn : 0 ≤ n) (hnd : l.Nodup)
    (hmem : ∀ p, p ∈ l ↔ (0 ≤ p ∧ p < n)) : (l.length : Int) = n := by
  have hset : l.toFinset = Finset.Ico 0 n := by
    ext p
    simp only [List.mem_toFinset, hmem, Finset.mem_Ico]
  have hcard := List.toFinset_card_of_nodup hnd
  rw [hset, Int.card_Ico] at hcard
  rw [← hcard]
  omega

/-- In a contiguous state no next position exceeds `size`, and `size` is between
0 and the length of the table. -/
theorem Contiguous_bounds (c : Simple) (hc : Contiguous c) (s : Int) :
    SeqMap.get c.seqNextPos s ≤ c.size ∧ 0 ≤ c.size ∧ c.size ≤ (c.cells.length : Int) := by
  obtain ⟨h1, h2, h3, h4⟩ := hc
  have e1 := range_length _ _ (h2 s) (h3 s).1 (h3 s).2
  have e2 := positionsOf_length_le s c.cells
  have e3 := live_le_length c.cells h1
  simp only [liveAssociations] at h4
  omega

/-- Writing a free cell of a contiguous state whose table has fewer than `2^63`
cells overflows neither `size` nor the next position. -/
theorem assignCell_exact (c : Simple) (i : Nat) (seq : Int) (cell : cacheCell)
    (hc : Contiguous c) (hlen : (c.cells.length : Int) < 9223372036854775808)
    (hcell : c.cells[c.curPos + i]? = some cell) (hfree : cell.sequences = []) :
    (assignCell c i seq).size = c.size + 1 ∧
    (assignCell c i seq).seqNextPos
      = SeqMap.set c.seqNextPos seq (SeqMap.get c.seqNextPos seq + 1) := by
  obtain ⟨_, _, _, _, f5, _, _, f8⟩ := assignCell_fields c i seq
  obtain ⟨b1, b2, _⟩ := Contiguous_bounds c hc seq
  obtain ⟨h1, h2, _, h4⟩ := hc
  have hlive := live_set_free { seq := seq, pos := 0 } c.cells (c.curPos + i) cell hcell hfree
  have hle := live_le_length (c.cells.set (c.curPos + i) { sequences := [{ seq := seq, pos := 0 }] })
    (by
      intro cell1 hmem
      rcases List.mem_or_eq_of_mem_set hmem with hm | hm
      · exact h1 cell1 hm
      · rw [hm]; simp)
  rw [List.length_set] at hle
  simp only [liveAssociations] at h4
  have hnn := h2 seq
  rw [f5, f8, wrap_id _ (by omega) (by omega), wrap_id _ (by omega) (by omega)]
  exact ⟨rfl, rfl⟩

theorem assignCell_Contiguous (c : Simple) (i : Nat) (seq : Int) (cell : cacheCell)
    (hc : Contiguous c) (hlen : (c.cells.length : Int) < 9223372036854775808)
    (hcell : c.cells[c.curPos + i]? = some cell)
    (hfree : cell.sequences = []) : Contiguous (assignCell c i seq) := by
  obtain ⟨f5, f8⟩ := assignCell_exact c i seq cell hc hlen hcell hfree
  obtain ⟨h1, h2, h3, h4⟩ := hc
  obtain ⟨_, _, _, _, _, f6, _, _⟩ := assignCell_fields c i seq
  unfold Contiguous
  rw [f5, f6, f8]
  refine ⟨?_, ?_, ?_, ?_⟩
  · intro cell1 hmem
    rcases List.mem_or_eq_of_mem_set hmem with hm | hm
    · exact h1 cell1 hm
    · rw [hm]; simp
  · intro s
    rw [SeqMap.get_set]
    have := h2 s
    have := h2 seq
    split <;> omega
  · intro s
    have hperm := positionsOf_set_free s { seq := seq, pos := SeqMap.get c.seqNextPos seq }
      c.cells (c.curPos + i) cell hcell hfree
    obtain ⟨hnd, hmem⟩ := h3 s
    have hnn := h2 s
    rw [hperm.nodup_iff, SeqMap.get_set]
    by_cases hs : seq = s
    · subst hs
      simp only [if_true, List.singleton_append, List.nodup_cons]
      refine ⟨⟨?_, hnd⟩, ?_⟩
      · rw [hmem]; omega
      · intro p
        rw [hperm.mem_iff]
        simp only [if_true, List.singleton_append, List.mem_cons, hmem]
        omega
    · have hs' : ¬ s = seq := fun e => hs e.symm
      simp only [hs, if_false, List.nil_append, hs']
      refine ⟨hnd, ?_⟩
      intro p
      rw [hperm.mem_iff]
      simp only [hs, if_false, List.nil_append]
      exact hmem p
  · simp only [liveAssociations] at h4 ⊢
    rw [f6, live_set_free _ c.cells (c.curPos + i) cell hcell hfree, h4]
    push_cast
    ring

theorem assignLoop_Contiguous :
    ∀ (seqs : List Int) (i : Nat) (c c1 : Simple), Contiguous c →
      (c.cells.length : Int) < 9223372036854775808 →
      (∀ j, c.curPos + i ≤ j → j < c.curPos + i + seqs.length →
        (c.cells[j]?).map cacheCell.sequences = some []) →
      assignLoop seqs i c = Run.ret c1 → Contiguous c1 := by
  intro seqs
  induction seqs with
  | nil =>
    intro i c c1 hc _ _ h
    simp only [assignLoop, Run.ret.injEq] at h
    subst h; exact hc
  | cons seq rest ih =>
    intro i c c1 hc hlen hfree h
    unfold assignLoop at h
    by_cases hb : c.curPos + i < c.cells.length
    · rw [if_pos hb] at h
      obtain ⟨_, f2, _, _, _, f6, _, _⟩ := assignCell_fields c i seq
      have h0 := hfree (c.curPos + i) (le_refl _) (by simp)
      rw [List.getElem?_eq_getElem hb] at h0
      simp only [Option.map_some', Option.some.injEq] at h0
      refine ih (i + 1) _ c1
        (assignCell_Contiguous c i seq _ hc hlen (List.getElem?_eq_getElem hb) h0)
        (by rw [f6, List.length_set]; exact hlen) ?_ h
      intro j hj1 hj2
      rw [f2] at hj1 hj2
      rw [f6, List.getElem?_set_ne (by omega)]
      exact hfree j (by omega) (by simp only [List.length_cons]; omega)
    · rw [if_neg hb] at h
      exact absurd h (by simp)

theorem StartForward_Contiguous (c c1 : Simple) (seqs : List Int)
    (h : StartForward c seqs = Run.ret (c1, none)) (hc : Contiguous c)
    (hlen : (c.cells.length : Int) < 9223372036854775808) : Contiguous c1 := by
  obtain ⟨start, c2, mask, hf, ha, _, he⟩ := StartForward_success c c1 seqs h
  have hrun := (((findStartPos_run _).1 start).1 hf).1
  have hc2 : Contiguous c2 := by
    refine assignLoop_Contiguous seqs 0
      { c with curBatchSize := seqs.length, curPos := start } c2 hc hlen ?_ ha
    intro j hj1 hj2
    simp only [Nat.add_zero] at hj1 hj2
    have := hrun.2 (j - start) (by simp only []; omega)
    have e1 : start + (j - start) = j := by omega
    rw [e1] at this
    exact this
  subst he
  exact hc2

theorem findSeq_singleton (x : seqCell) (seq : Int) :
    cacheCell.findSeq { sequences := [x] } seq = if x.seq = seq then some (0, x) else none := by
  simp [cacheCell.findSeq, findSeqFrom]

theorem removeCell_single (seq b e off : Int) (cell : cacheCell)
    (hlen : cell.sequences.length ≤ 1) :
    ((removeCell seq b e off cell).sequences.filter (fun s => decide (s.seq = seq))).map
        seqCell.pos
      = ((cell.sequences.filter (fun s => decide (s.seq = seq))).map seqCell.pos).filterMap
          (trimPos b e off) ∧
    (removeCell seq b e off cell).sequences.length ≤ 1 ∧
    (removeCell seq b e off cell).sequences.length
      + (((cell.sequences.filter (fun s => decide (s.seq = seq))).map seqCell.pos).filter
          (fun p => decide (b ≤ p ∧ p < e))).length
      = cell.sequences.length := by
  obtain ⟨l⟩ := cell
  match l, hlen with
  | [], _ => simp [removeCell, cacheCell.findSeq, findSeqFrom]
  | [x], _ =>
    unfold removeCell
    rw [findSeq_singleton]
    by_cases hx : x.seq = seq
    · simp only [hx, if_true]
      by_cases hin : x.pos ≥ b ∧ x.pos < e
      · have hin' : b ≤ x.pos ∧ x.pos < e := hin
        simp [hin, hin', hx, trimPos, List.filter_cons]
      · have hin' : ¬ (b ≤ x.pos ∧ x.pos < e) := hin
        rw [if_neg hin]
        by_cases hge : x.pos ≥ e
        · simp [hin, hin', hge, hx, trimPos, List.filter_cons]
        · simp [hin, hin', hge, hx, trimPos, List.filter_cons]
    · simp [hx, List.filter_cons]
  | _ :: _ :: _, h => simp at h

theorem positionsOf_remove_same (seq b e off : Int) :
    ∀ (cells : List cacheCell), (∀ cell ∈ cells, cell.sequences.length ≤ 1) →
      positionsOf seq (cells.map (removeCell seq b e off))
        = (positionsOf seq cells).filterMap (trimPos b e off) ∧
      ((cells.map (removeCell seq b e off)).map (fun cell => cell.sequences.length)).sum
        + ((positionsOf seq cells).filter (fun p => decide (b ≤ p ∧ p < e))).length
        = (cells.map (fun cell => cell.sequences.length)).sum := by
  intro cells
  induction cells with
  | nil => intro _; simp [positionsOf]
  | cons a rest ih =>
    intro h
    obtain ⟨r1, _, r3⟩ := removeCell_single seq b e off a (h a (by simp))
    obtain ⟨i1, i2⟩ := ih (fun cell hc => h cell (by simp [hc]))
    constructor
    · simp only [List.map_cons, positionsOf, List.filterMap_append, r1, i1]
    · simp only [List.map_cons, positionsOf, List.sum_cons, List.filter_append,
        List.length_append]
      omega

theorem removeCell_other_seq (seq b e off s : Int) (cell : cacheCell) (hs : s ≠ seq) :
    (removeCell seq b e off cell).sequences.filter (fun t => decide (t.seq = s))
      = cell.sequences.filter (fun t => decide (t.seq = s)) := by
  have h := congrArg (List.filter (fun t : seqCell => decide (t.seq = s)))
    (removeCell_others seq b e off cell)
  simp only [List.filter_filter] at h
  have hfun : (fun a : seqCell => decide (a.seq = s) && decide (a.seq ≠ seq))
      = (fun t : seqCell => decide (t.seq = s)) := by
    funext a
    by_cases ha : a.seq = s
    · have : a.seq ≠ seq := fun e => hs (ha.symm.trans e)
      simp [ha, hs]
    · simp [ha]
  rw [hfun] at h
  exact h

theorem positionsOf_remove_other (seq b e off s : Int) (hs : s ≠ seq) :
    ∀ (cells : List cacheCell),
      positionsOf s (cells.map (removeCell seq b e off)) = positionsOf s cells := by
  intro cells
  induction cells with
  | nil => rfl
  | cons a rest ih =>
    simp only [List.map_cons, positionsOf, ih, removeCell_other_seq seq b e off s a hs]

theorem range_filter_length (l : List Int) (n b e : Int) (hnd : l.Nodup)
    (hmem : ∀ p, p ∈ l ↔ (0 ≤ p ∧ p < n)) (hb : 0 ≤ b) (hbe : b ≤ e) (hen : e ≤ n) :
    ((l.filter (fun p => decide (b ≤ p ∧ p < e))).length : Int) = e - b := by
  have hset : (l.filter (fun p => decide (b ≤ p ∧ p < e))).toFinset = Finset.Ico b e := by
    ext p
    simp only [List.mem_toFinset, List.mem_filter, hmem, decide_eq_true_eq, Finset.mem_Ico]
    omega
  have hcard := List.toFinset_card_of_nodup (hnd.filter (fun p => decide (b ≤ p ∧ p < e)))
  rw [hset, Int.card_Ico] at hcard
  rw [← hcard]
  omega

theorem nodup_filterMap_on (f : Int → Option Int) :
    ∀ (l : List Int), l.Nodup →
      (∀ a ∈ l, ∀ a1 ∈ l, ∀ q, f a = some q → f a1 = some q → a = a1) →
      (l.filterMap f).Nodup := by
  intro l
  induction l with
  | nil => intro _ _; simp
  | cons x rest ih =>
    intro hnd hinj
    obtain ⟨hx, hrest⟩ := List.nodup_cons.1 hnd
    have hr := ih hrest (fun a ha a1 ha1 => hinj a (by simp [ha]) a1 (by simp [ha1]))
    cases hfx : f x with
    | none =>
      rw [List.filterMap_cons_none hfx]
      exact hr
    | some q =>
      rw [List.filterMap_cons_some hfx, List.nodup_cons]
      refine ⟨?_, hr⟩
      intro hq
      obtain ⟨a, ha, hfa⟩ := List.mem_filterMap.1 hq
      have := hinj x (by simp) a (by simp [ha]) q hfx hfa
      subst this
      exact hx ha

theorem trimPos_injective (b e n : Int) (hb : 0 ≤ b) (hbe : b ≤ e) (hen : e ≤ n)
    (hn : n < 9223372036854775808) :
    ∀ a a1 q : Int, 0 ≤ a → a < n → 0 ≤ a1 → a1 < n →
      trimPos b e (e - b) a = some q → trimPos b e (e - b) a1 = some q → a = a1 := by
  intro a a1 q ha ha' ha1 ha1' h h1
  simp only [trimPos] at h h1
  split at h
  · exact absurd h (by simp)
  · split at h1
    · exact absurd h1 (by simp)
    · split at h <;> split at h1 <;>
        simp only [Option.some.injEq] at h h1 <;> (try unfold wrap at *) <;> omega

theorem trimPos_range (l : List Int) (n b e : Int)
    (hmem : ∀ p, p ∈ l ↔ (0 ≤ p ∧ p < n)) (hb : 0 ≤ b) (hbe : b ≤ e) (hen : e ≤ n)
    (hn : n < 9223372036854775808) (q : Int) :
    q ∈ l.filterMap (trimPos b e (e - b)) ↔ (0 ≤ q ∧ q < n - (e - b)) := by
  simp only [List.mem_filterMap, hmem]
  constructor
  · rintro ⟨p, hp, hq⟩
    simp only [trimPos] at hq
    split at hq
    · exact absurd hq (by simp)
    · split at hq <;> simp only [Option.some.injEq] at hq <;> (try unfold wrap at *) <;> omega
  · intro hq
    by_cases hlt : q < b
    · refine ⟨q, by omega, ?_⟩
      simp only [trimPos]
      rw [if_neg (by omega), if_neg (by omega)]
    · refine ⟨q + (e - b), by omega, ?_⟩
      simp only [trimPos]
      rw [if_neg (by omega), if_pos (by omega), wrap_id _ (by omega) (by omega)]
      simp

theorem Remove_Contiguous (c : Simple) (seq b e : Int) (hc : Contiguous c)
    (hlen : (c.cells.length : Int) < 9223372036854775808) (hb : 0 ≤ b)
    (hbe : b ≤ min e (SeqMap.get c.seqNextPos seq)) : Contiguous (Remove c seq b e).1 := by
  obtain ⟨b1, b2, b3⟩ := Contiguous_bounds c hc seq
  obtain ⟨h1, h2, h3, h4⟩ := hc
  have hen : min e (SeqMap.get c.seqNextPos seq) ≤ SeqMap.get c.seqNextPos seq :=
    min_le_right _ _
  obtain ⟨hcells, hnp, hsize, _, _⟩ := Remove_fields c seq b e
  generalize min e (SeqMap.get c.seqNextPos seq) = e1 at hbe hen hcells hnp hsize
  have hn : SeqMap.get c.seqNextPos seq < 9223372036854775808 := by omega
  rw [wrap_id _ (by omega) (by omega)] at hcells hnp
  obtain ⟨p1, p2⟩ := positionsOf_remove_same seq b e1 (e1 - b) c.cells h1
  have hcount := range_filter_length (positionsOf seq c.cells) _ b e1 (h3 seq).1 (h3 seq).2
    hb hbe hen
  have p2' := congrArg (fun n : Nat => (n : Int)) p2
  simp only [Nat.cast_add] at p2'
  simp only [liveAssociations] at h4
  rw [wrap_id _ (by omega) (by omega)] at hsize
  unfold Contiguous
  rw [hcells, hnp, hsize]
  refine ⟨?_, ?_, ?_, ?_⟩
  · intro cell hcell
    obtain ⟨cell0, h0, hc0⟩ := List.mem_map.1 hcell
    rw [← hc0]
    exact (removeCell_single seq b e1 (e1 - b) cell0 (h1 cell0 h0)).2.1
  · intro s
    rw [SeqMap.get_set]
    have := h2 s
    split <;> omega
  · intro s
    by_cases hs : s = seq
    · subst hs
      obtain ⟨hnd, hmem⟩ := h3 s
      rw [p1, SeqMap.get_set, if_pos rfl]
      refine ⟨nodup_filterMap_on _ _ hnd ?_, ?_⟩
      · intro a ha a1 ha1 q hq hq1
        exact trimPos_injective b e1 _ hb hbe hen hn a a1 q ((hmem a).1 ha).1 ((hmem a).1 ha).2
          ((hmem a1).1 ha1).1 ((hmem a1).1 ha1).2 hq hq1
      · intro q
        exact trimPos_range _ _ b e1 hmem hb hbe hen hn q
    · rw [positionsOf_remove_other seq b e1 (e1 - b) s hs, SeqMap.get_set, if_neg hs]
      exact h3 s
  · simp only [liveAssociations]
    rw [hcells, h4]
    omega

theorem Reach_cells_length (adm : Simple → Op → Prop) :
    ∀ c, Reach adm c → (c.cells.length : Int) < 9223372036854775808 := by
  intro c h
  induction h with
  | fresh capacity c h =>
    unfold NewSimpleCache at h
    split at h
    · exact absurd h (by simp)
    · rename_i hcap
      simp only [Run.ret.injEq] at h
      subst h
      simp only [List.length_replicate]
      omega
  | step c op c1 _ _ hstep ih =>
    cases op with
    | startForward seqs =>
      rcases applyOp_startForward c c1 seqs hstep with hs | hs
      · obtain ⟨start, c2, mask, _, ha, _, he⟩ := StartForward_success c c1 seqs hs
        obtain ⟨_, _, _, _, _, g6, _⟩ := assignLoop_spec seqs 0 _ _ ha
        subst he
        simp only [g6]
        exact ih
      · subst hs; exact ih
    | copy src dst b e =>
      simp only [applyOp, Option.some.injEq] at hstep
      rw [← hstep]
      simp only [Copy, List.length_map]
      exact ih
    | remove seq b e =>
      simp only [applyOp, Option.some.injEq] at hstep
      rw [← hstep]
      simp only [Remove, List.length_map]
      exact ih

theorem Reach_Contiguous (adm : Simple → Op → Prop)
    (hcopy : ∀ c src dst b e, ¬ adm c (Op.copy src dst b e))
    (hrem : ∀ c seq b e, adm c (Op.remove seq b e) →
      0 ≤ b ∧ b ≤ min e (SeqMap.get c.seqNextPos seq)) :
    ∀ c, Reach adm c → Contiguous c := by
  intro c h
  induction h with
  | fresh capacity c h => exact Contiguous_fresh capacity c h
  | step c op c1 hreach ha hstep ih =>
    cases op with
    | startForward seqs =>
      rcases applyOp_startForward c c1 seqs hstep with hs | hs
      · exact StartForward_Contiguous c c1 seqs hs ih (Reach_cells_length adm c hreach)
      · subst hs; exact ih
    | copy src dst b e => exact absurd ha (hcopy c src dst b e)
    | remove seq b e =>
      simp only [applyOp, Option.some.injEq] at hstep
      rw [← hstep]
      exact Remove_Contiguous c seq b e ih (Reach_cells_length adm c hreach)
        (hrem c seq b e ha).1 (hrem c seq b e ha).2

/-- C10 as stated fails: `Copy` adds associations without changing `size`; after
the two steps of the scenario and `Copy(1, 3, 0, 2)`, `size` is 4 while the cells
hold 6 associations. -/
theorem size_counts_associations_counterexample :
    Reach anyCall forked4 ∧ forked4.size = 4 ∧ liveAssociations forked4 = 6 :=
  ⟨Reach_forked4 anyCall trivial trivial trivial, by decide, by decide⟩

/-- C10 (amended): in every state reachable from a fresh cache by `StartForward`
calls that return and `Remove(seq, begin, end)` calls with
`0 ≤ begin ≤ min(end, seqNextPos[seq])`, without `Copy`, `size` equals the total
number of live `(sequence, position)` associations summed over all cells. -/
theorem size_counts_associations (c : Simple) (h : Reach stepsAndTrims c) :
    c.size = (liveAssociations c : Int) :=
  (Reach_Contiguous stepsAndTrims (fun _ _ _ _ _ ha => ha) (fun _ _ _ _ ha => ha) c h).2.2.2

theorem size_counts_associations_witness :
    Reach stepsAndTrims (Remove twoSteps4 1 0 1).1 ∧
    (Remove twoSteps4 1 0 1).1.size = 3 ∧
    (Remove twoSteps4 1 0 1).1.size = (liveAssociations (Remove twoSteps4 1 0 1).1 : Int) :=
  have hr : Reach stepsAndTrims (Remove twoSteps4 1 0 1).1 :=
    Reach.step twoSteps4 (Op.remove 1 0 1) (Remove twoSteps4 1 0 1).1
      (Reach_twoSteps4 stepsAndTrims trivial trivial)
      (by show (0 : Int) ≤ 0 ∧ (0 : Int) ≤ min 1 (SeqMap.get twoSteps4.seqNextPos 1); decide)
      rfl
  ⟨hr, by decide, size_counts_associations (Remove twoSteps4 1 0 1).1 hr⟩

/-! ## Sign of the next positions -/

theorem StartForward_nextPos (c c1 : Simple) (seqs : List Int)
    (h : StartForward c seqs = Run.ret (c1, none)) (s : Int) :
    SeqMap.get c1.seqNextPos s = advance (SeqMap.get c.seqNextPos s) (seqs.count s) := by
  obtain ⟨start, c2, mask, _, ha, _, hc⟩ := StartForward_success c c1 seqs h
  obtain ⟨_, _, _, _, _, _, _, _, _, g10, _⟩ := assignLoop_spec seqs 0 _ _ ha
  subst hc
  exact g10 s

theorem Reach_nextPos_nonneg (adm : Simple → Op → Prop)
    (hstart : ∀ c seqs, adm c (Op.startForward seqs) →
      ∀ s ∈ seqs, SeqMap.get c.seqNextPos s + (seqs.count s : Int) ≤ 9223372036854775807)
    (hcopy : ∀ c src dst b e, adm c (Op.copy src dst b e) →
      0 ≤ b ∧ b ≤ min e (SeqMap.get c.seqNextPos src) ∧
      SeqMap.get c.seqNextPos dst + (min e (SeqMap.get c.seqNextPos src) - b)
        ≤ 9223372036854775807)
    (hrem : ∀ c seq b e, adm c (Op.remove seq b e) →
      0 ≤ b ∧ b ≤ e ∧ b ≤ 9223372036854775807) :
    ∀ c, Reach adm c → ∀ s,
      0 ≤ SeqMap.get c.seqNextPos s ∧ SeqMap.get c.seqNextPos s < 9223372036854775808 := by
  intro c h
  induction h with
  | fresh capacity c h =>
    unfold NewSimpleCache at h
    split at h
    · exact absurd h (by simp)
    · simp only [Run.ret.injEq] at h
      subst h
      intro s
      simp [SeqMap.get_empty]
  | step c op c1 _ ha hstep ih =>
    intro s
    cases op with
    | startForward seqs =>
      rcases applyOp_startForward c c1 seqs hstep with hs | hs
      · rw [StartForward_nextPos c c1 seqs hs s]
        have := ih s
        by_cases hk : seqs.count s = 0
        · rw [hk, advance_zero]; exact this
        · have hmem : s ∈ seqs := List.count_pos_iff.1 (Nat.pos_of_ne_zero hk)
          have hle := hstart c seqs ha s hmem
          rw [advance_pos _ _ (Nat.pos_of_ne_zero hk), wrap_id _ (by omega) (by omega)]
          omega
      · subst hs; exact ih s
    | copy src dst b e =>
      simp only [applyOp, Option.some.injEq] at hstep
      rw [← hstep]
      have hb := hcopy c src dst b e ha
      have h1 := ih s
      have h2 := ih dst
      have h3 := ih src
      simp only [Copy, SeqMap.get_set]
      unfold wrap
      split <;> omega
    | remove seq b e =>
      simp only [applyOp, Option.some.injEq] at hstep
      rw [← hstep]
      have hb := hrem c seq b e ha
      have h1 := ih s
      have h2 := ih seq
      simp only [Remove, SeqMap.get_set]
      unfold wrap
      split <;> omega

/-- C11 as stated fails: on a fresh cache `Copy(1, 2, 1, 2)` has `0 ≤ 1 ≤ 2`, the
end is clamped to `seqNextPos[1] = 0`, and `seqNextPos[2]` becomes `-1`. -/
theorem nextPos_nonneg_counterexample :
    Reach orderedRanges (Copy fresh4 1 2 1 2) ∧
    SeqMap.get (Copy fresh4 1 2 1 2).seqNextPos 2 = -1 :=
  ⟨Reach.step fresh4 (Op.copy 1 2 1 2) (Copy fresh4 1 2 1 2)
      (Reach.fresh 4 fresh4 (by decide))
      (by show (0 : Int) ≤ 1 ∧ (1 : Int) ≤ 2; decide) rfl,
    by decide⟩

/-- C11 (amended): on a fresh cache, after any sequence of calls none of which
overflows a next position, `seqNextPos[s] ≥ 0` for every sequence `s`: the
calls are `StartForward(seqs)` calls that return, every id of the batch,
occurring `k` times in it, having `seqNextPos + k ≤ MaxInt64`; `Remove` calls
with `0 ≤ begin ≤ end` (`begin` an `int`); and `Copy(src, dst, begin, end)`
calls with `0 ≤ begin ≤ e'` and `seqNextPos[dst] + (e' - begin) ≤ MaxInt64`,
where `e' = min(end, seqNextPos[src])`. -/
theorem nextPos_nonneg (c : Simple) (h : Reach clampedRanges c) (s : Int) :
    0 ≤ SeqMap.get c.seqNextPos s :=
  (Reach_nextPos_nonneg clampedRanges (fun _ _ ha => ha) (fun _ _ _ _ _ ha => ha)
    (fun _ _ _ _ ha => ha) c h s).1

theorem nextPos_nonneg_witness :
    Reach clampedRanges forked4 ∧ SeqMap.get forked4.seqNextPos 3 = 2 ∧
    0 ≤ SeqMap.get forked4.seqNextPos 3 :=
  have hr : Reach clampedRanges forked4 :=
    Reach_forked4 clampedRanges
      (by
        show ∀ s ∈ ([1, 2] : List Int),
          SeqMap.get fresh4.seqNextPos s + ((([1, 2] : List Int).count s : Nat) : Int)
            ≤ 9223372036854775807
        decide)
      (by
        show ∀ s ∈ ([1, 2] : List Int),
          SeqMap.get oneStep4.seqNextPos s + ((([1, 2] : List Int).count s : Nat) : Int)
            ≤ 9223372036854775807
        decide)
      (by
        show (0 : Int) ≤ 0 ∧ (0 : Int) ≤ min 2 (SeqMap.get twoSteps4.seqNextPos 1) ∧
          SeqMap.get twoSteps4.seqNextPos 3 + (min 2 (SeqMap.get twoSteps4.seqNextPos 1) - 0)
            ≤ 9223372036854775807
        decide)
  ⟨hr, by decide, nextPos_nonneg forked4 hr 3⟩

/-! ## High-water mark and the rows of the mask -/

/-- C12 on the code: the first step `StartForward([1, 2])` of a fresh capacity-4
cache writes cells 0 and 1, and leaves `maxCell = 1`, the highest index written,
not one past it. -/
theorem maxCell_after_first_step :
    NewSimpleCache 4 = Run.ret fresh4 ∧
    StartForward fresh4 [1, 2] = Run.ret (oneStep4, none) ∧
    oneStep4.cells[0]? = some { sequences := [{ seq := 1, pos := 0 }] } ∧
    oneStep4.cells[1]? = some { sequences := [{ seq := 2, pos := 0 }] } ∧
    oneStep4.maxCell = 1 := by
  decide

/-- C13 on the code: after the first step `StartForward([1, 2])` of a fresh
capacity-4 cache the mask has `maxCell = 1` row for 2 columns; the cell written
for sequence 2, index `curPos + 1 = 1`, is not a row of the mask, and the only
entry of column 1 is negative infinity. -/
theorem mask_after_first_step :
    StartForward fresh4 [1, 2] = Run.ret (oneStep4, none) ∧
    oneStep4.curPos = 0 ∧ oneStep4.maxCell = 1 ∧
    ¬ (oneStep4.curPos + 1 < oneStep4.maxCell) ∧
    oneStep4.curMask = [MaskVal.zero, MaskVal.negInf] ∧
    oneStep4.curMask[1 * oneStep4.maxCell + 0]? = some MaskVal.negInf := by
  decide

/-! ## Errors of `StartForward` -/

/-- C14 as stated fails where `size + len(seqs)` overflows: after the two steps
of the scenario and `Remove(5, MaxInt64 - 5, 0)` the table is full and
`size = MaxInt64 - 1`, so no run of two free cells exists and
`size + 2 > Capacity`; yet `StartForward([1, 2])` sees the sum wrapped to
`MinInt64`, calls `defrag` and panics: it returns no error. -/
theorem StartForward_capacity_error_counterexample :
    StartForward fresh4 [1, 2] = Run.ret (oneStep4, none) ∧
    StartForward oneStep4 [1, 2] = Run.ret (twoSteps4, none) ∧
    (Remove twoSteps4 5 9223372036854775802 0).1 = brimful4 ∧
    brimful4.size = 9223372036854775806 ∧ brimful4.Capacity = 4 ∧
    (∀ s, ¬ FreeRun brimful4.cells s ([1, 2] : List Int).length) ∧
    brimful4.size + (([1, 2] : List Int).length : Int) > brimful4.Capacity ∧
    wrap (brimful4.size + (([1, 2] : List Int).length : Int)) = -9223372036854775808 ∧
    StartForward brimful4 [1, 2] = Run.panic Abort.defragNotImplemented ∧
    ¬ ∃ c1 e, StartForward brimful4 [1, 2] = Run.ret (c1, some e) :=
  ⟨by decide, by decide, by decide, by decide, by decide,
    (findStartPos_run { brimful4 with curBatchSize := 2 }).2.1.1 (by decide),
    by decide, by decide, by decide,
    fun ⟨c1, e, h⟩ =>
      absurd ((show StartForward brimful4 [1, 2] = Run.panic Abort.defragNotImplemented from
        by decide).symm.trans h) (by simp)⟩

/-- C14 (amended): for a non-empty batch, `StartForward` returns a non-nil error
exactly when no run of `len(seqs)` consecutive free cells exists and
`size + len(seqs)`, reduced to 64 bits with wrap-around, exceeds `Capacity`; the
error it returns is `ErrKvCacheFull` wrapped with the configured `Capacity`, so
`errors.Is(err, ErrKvCacheFull)` holds. -/
theorem StartForward_capacity_error (c : Simple) (seqs : List Int) (hne : seqs ≠ []) :
    ((∃ c1 e, StartForward c seqs = Run.ret (c1, some e)) ↔
      ((∀ s, ¬ FreeRun c.cells s seqs.length) ∧
        wrap (c.size + (seqs.length : Int)) > c.Capacity)) ∧
    (∀ c1 e, StartForward c seqs = Run.ret (c1, some e) →
      e = Err.kvCacheFull c.Capacity ∧ isKvCacheFull (some e) = true) := by
  have hlen : 0 < seqs.length := List.length_pos.mpr hne
  have hfail := (findStartPos_run { c with curBatchSize := seqs.length }).2.1
  simp only [Nat.max_eq_left hlen] at hfail
  constructor
  · constructor
    · rintro ⟨c1, e, h⟩
      obtain ⟨h1, h2, _, _⟩ := (StartForward_error c c1 seqs e).1 h
      exact ⟨hfail.1 h1, by omega⟩
    · rintro ⟨hno, hcap⟩
      exact ⟨_, _, (StartForward_error c _ seqs _).2 ⟨hfail.2 hno, by omega, rfl, rfl⟩⟩
  · intro c1 e h
    obtain ⟨_, _, h3, _⟩ := (StartForward_error c c1 seqs e).1 h
    subst h3
    exact ⟨rfl, rfl⟩

theorem StartForward_capacity_error_witness :
    ([1, 2] : List Int) ≠ [] ∧
    twoSteps4.size = 4 ∧ twoSteps4.Capacity = 4 ∧
    wrap (twoSteps4.size + (([1, 2] : List Int).length : Int)) = 6 ∧
    (∀ s, ¬ FreeRun twoSteps4.cells s ([1, 2] : List Int).length) ∧
    (∃ c1 e, StartForward twoSteps4 [1, 2] = Run.ret (c1, some e)) ∧
    (∀ c1 e, StartForward twoSteps4 [1, 2] = Run.ret (c1, some e) →
      e = Err.kvCacheFull 4 ∧ isKvCacheFull (some e) = true) :=
  have h := StartForward_capacity_error twoSteps4 [1, 2] (by decide)
  have hex : ∃ c1 e, StartForward twoSteps4 [1, 2] = Run.ret (c1, some e) :=
    ⟨{ twoSteps4 with curBatchSize := 2, curPos := 0 }, Err.kvCacheFull 4, by decide⟩
  ⟨by decide, by decide, by decide, by decide, (h.1.1 hex).1, hex, h.2⟩

/-- C19: whenever `StartForward` returns an error (it is the capacity-exhausted
one), the cell table, `seqNextPos`, `size`, `maxCell` (and `Capacity`, `curMask`)
are as before the call; only `curBatchSize`, now `len(seqs)`, and `curPos`, now
0, were written. -/
theorem StartForward_failure_atomic (c c1 : Simple) (seqs : List Int) (e : Err)
    (h : StartForward c seqs = Run.ret (c1, some e)) :
    e = Err.kvCacheFull c.Capacity ∧
    c1.cells = c.cells ∧ c1.seqNextPos = c.seqNextPos ∧ c1.size = c.size ∧
    c1.maxCell = c.maxCell ∧ c1.Capacity = c.Capacity ∧ c1.curMask = c.curMask ∧
    c1.curBatchSize = seqs.length ∧ c1.curPos = 0 := by
  obtain ⟨_, _, h3, h4⟩ := (StartForward_error c c1 seqs e).1 h
  subst h4
  exact ⟨h3, rfl, rfl, rfl, rfl, rfl, rfl, rfl, rfl⟩

theorem StartForward_failure_atomic_witness :
    StartForward twoSteps4 [1, 2]
      = Run.ret ({ twoSteps4 with curBatchSize := 2, curPos := 0 }, some (Err.kvCacheFull 4)) ∧
    ({ twoSteps4 with curBatchSize := 2, curPos := 0 } : Simple).cells = twoSteps4.cells ∧
    ({ twoSteps4 with curBatchSize := 2, curPos := 0 } : Simple).seqNextPos
      = twoSteps4.seqNextPos ∧
    ({ twoSteps4 with curBatchSize := 2, curPos := 0 } : Simple).size = twoSteps4.size ∧
    ({ twoSteps4 with curBatchSize := 2, curPos := 0 } : Simple).maxCell = twoSteps4.maxCell :=
  have h := StartForward_failure_atomic twoSteps4
    { twoSteps4 with curBatchSize := 2, curPos := 0 } [1, 2] (Err.kvCacheFull 4) (by decide)
  ⟨by decide, h.2.1, h.2.2.1, h.2.2.2.1, h.2.2.2.2.1⟩

/-! ## Unimplemented paths -/

theorem StartForward_defrag (c : Simple) (seqs : List Int)
    (hfail : (findStartPos { c with curBatchSize := seqs.length }).2
      = some (Err.kvCacheFull c.Capacity))
    (hroom : wrap (c.size + (seqs.length : Int)) ≤ c.Capacity) :
    StartForward c seqs = Run.panic Abort.defragNotImplemented := by
  unfold StartForward
  simp only [defrag, hfail, isKvCacheFull, true_and]
  rw [if_pos hroom]

/-- C15 on the code: in the state reached by the two steps of the scenario and
`Remove(1, 0, 2)`, two cells are free but not adjacent and
`size + 2 ≤ Capacity`; `StartForward([3, 4])` calls `defrag`, which panics. -/
theorem StartForward_fragmented_aborts :
    StartForward fresh4 [1, 2] = Run.ret (oneStep4, none) ∧
    StartForward oneStep4 [1, 2] = Run.ret (twoSteps4, none) ∧
    (Remove twoSteps4 1 0 2).1 = fragmented4 ∧
    fragmented4.size + 2 ≤ fragmented4.Capacity ∧
    StartForward fragmented4 [3, 4] = Run.panic Abort.defragNotImplemented := by
  decide

/-- C17 on the code: `Shift` panics on every call; it renumbers nothing and
returns nothing. -/
theorem Shift_aborts (c : Simple) (seq b e offset : Int) :
    Shift c seq b e offset = Run.panic Abort.shiftNotImplemented :=
  rfl

/-! ## Successful steps -/

theorem StartForward_of_parts (c c2 : Simple) (seqs : List Int) (start : Nat)
    (mask : List MaskVal)
    (hf : findStartPos { c with curBatchSize := seqs.length } = (start, none))
    (ha : assignLoop seqs 0 { c with curBatchSize := seqs.length, curPos := start } = Run.ret c2)
    (hm : buildMask c2 c.seqNextPos seqs = Run.ret mask) :
    StartForward c seqs = Run.ret ({ c2 with curMask := mask }, none) := by
  unfold StartForward
  simp only [hf, isKvCacheFull, Bool.false_eq_true, false_and, if_false, finishForward, ha, hm]

theorem StartForward_returns (c : Simple) (seqs : List Int) (start : Nat)
    (hwf : c.maxCell ≤ c.cells.length)
    (hf : findStartPos { c with curBatchSize := seqs.length } = (start, none))
    (hfit : seqs ≠ [] → start + seqs.length ≤ c.cells.length) :
    ∃ c2 mask,
      assignLoop seqs 0 { c with curBatchSize := seqs.length, curPos := start } = Run.ret c2 ∧
      buildMask c2 c.seqNextPos seqs = Run.ret mask ∧
      StartForward c seqs = Run.ret ({ c2 with curMask := mask }, none) := by
  have hret : ∃ c2, assignLoop seqs 0
      { c with curBatchSize := seqs.length, curPos := start } = Run.ret c2 := by
    by_cases hne : seqs = []
    · subst hne; exact ⟨_, rfl⟩
    · exact assignLoop_returns seqs 0 _ (by have := hfit hne; simp only []; omega)
  obtain ⟨c2, ha⟩ := hret
  obtain ⟨_, _, g3, _, _, g6, g7, _, _, _, g11⟩ := assignLoop_spec seqs 0 _ _ ha
  simp only [Nat.add_zero] at g3 g6 g7 g11
  have hmax : c2.maxCell ≤ c2.cells.length := by
    rw [g11, g6]
    by_cases hne : seqs = []
    · simp [hne, hwf]
    · have := g7 hne
      simp only [hne, if_false]
      omega
  have hmask : ∃ mask, buildMask c2 c.seqNextPos seqs = Run.ret mask := by
    unfold buildMask
    exact maskOuter_returns c2 c.seqNextPos seqs hmax _ _ _ (by rw [g3]; simp)
  obtain ⟨mask, hm⟩ := hmask
  exact ⟨c2, mask, ha, hm, StartForward_of_parts c c2 seqs start mask hf ha hm⟩

/-- C16: in a state whose `maxCell` rows exist in the table (as in every state
reached from a fresh cache), for a non-empty batch, if some run of `len(seqs)`
consecutive free cells exists then `StartForward(seqs)` succeeds, `curPos` is the
lowest offset of such a run, and cell `curPos + i` is written with `seqs[i]`. -/
theorem StartForward_lowest_run (c : Simple) (seqs : List Int) (hne : seqs ≠ [])
    (hwf : c.maxCell ≤ c.cells.length) (hrun : ∃ s, FreeRun c.cells s seqs.length) :
    ∃ c1, StartForward c seqs = Run.ret (c1, none) ∧
      FreeRun c.cells c1.curPos seqs.length ∧
      (∀ s, s < c1.curPos → ¬ FreeRun c.cells s seqs.length) ∧
      ∀ (i : Nat) (seq : Int), seqs[i]? = some seq →
        c1.cells[c1.curPos + i]? = some
          { sequences := [{ seq := seq,
                            pos := advance (SeqMap.get c.seqNextPos seq)
                              ((seqs.take i).count seq) }] } := by
  have hlen : 0 < seqs.length := List.length_pos.mpr hne
  obtain ⟨h1, h2, h3⟩ := findStartPos_run { c with curBatchSize := seqs.length }
  simp only [Nat.max_eq_left hlen] at h1 h2
  have hok : (findStartPos { c with curBatchSize := seqs.length }).2 = none := by
    rcases h3 with h | h
    · exact h
    · obtain ⟨s, hs⟩ := hrun
      exact absurd hs (h2.1 h s)
  have hf : findStartPos { c with curBatchSize := seqs.length }
      = ((findStartPos { c with curBatchSize := seqs.length }).1, none) := by
    rw [← hok]
  obtain ⟨hfree, hlow⟩ := (h1 _).1 hf
  obtain ⟨c2, mask, ha, _, hs⟩ := StartForward_returns c seqs _ hwf hf (fun _ => hfree.1)
  obtain ⟨_, g2, _, _, _, _, _, _, g9, _, _⟩ := assignLoop_spec seqs 0 _ _ ha
  simp only [Nat.add_zero] at g2 g9
  refine ⟨_, hs, ?_, ?_, ?_⟩
  · simp only [g2]; exact hfree
  · simp only [g2]; exact hlow
  · intro i seq hi
    simp only [g2]
    exact g9 i seq hi

theorem StartForward_lowest_run_witness :
    NewSimpleCache 4 = Run.ret fresh4 ∧
    StartForward fresh4 [1, 2] = Run.ret (oneStep4, none) ∧
    StartForward oneStep4 [1, 2] = Run.ret (twoSteps4, none) ∧
    (Remove twoSteps4 1 0 1).1 = trimmed4 ∧
    ([1] : List Int) ≠ [] ∧ trimmed4.maxCell ≤ trimmed4.cells.length ∧
    FreeRun trimmed4.cells 0 ([1] : List Int).length ∧
    StartForward trimmed4 [1] = Run.ret (reused4, none) ∧
    reused4.curPos = 0 ∧
    reused4.cells[0]? = some { sequences := [{ seq := 1, pos := 1 }] } ∧
    ∃ c1, StartForward trimmed4 [1] = Run.ret (c1, none) ∧
      FreeRun trimmed4.cells c1.curPos ([1] : List Int).length ∧
      (∀ s, s < c1.curPos → ¬ FreeRun trimmed4.cells s ([1] : List Int).length) ∧
      ∀ (i : Nat) (seq : Int), ([1] : List Int)[i]? = some seq →
        c1.cells[c1.curPos + i]? = some
          { sequences := [{ seq := seq,
                            pos := advance (SeqMap.get trimmed4.seqNextPos seq)
                              ((([1] : List Int).take i).count seq) }] } :=
  ⟨by decide, by decide, by decide, by decide, by decide, by decide, by decide, by decide,
    by decide, by decide,
    StartForward_lowest_run trimmed4 [1] (by decide) (by decide) ⟨0, by decide⟩⟩

/-! ## Index safety -/

theorem TableShape_fresh (capacity : Int) (c : Simple)
    (h : NewSimpleCache capacity = Run.ret c) : TableShape c := by
  unfold NewSimpleCache at h
  split at h
  · exact absurd h (by simp)
  · rename_i hcap
    simp only [Run.ret.injEq] at h
    subst h
    exact ⟨by simp only []; omega, by simp, Or.inl rfl⟩

theorem StartForward_TableShape (c c1 : Simple) (seqs : List Int)
    (h : StartForward c seqs = Run.ret (c1, none)) (hc : TableShape c) : TableShape c1 := by
  obtain ⟨start, c2, mask, _, ha, _, he⟩ := StartForward_success c c1 seqs h
  obtain ⟨g1, _, _, _, _, g6, g7, _, _, _, g11⟩ := assignLoop_spec seqs 0 _ _ ha
  simp only [Nat.add_zero] at g1 g6 g7 g11
  obtain ⟨h1, h2, h3⟩ := hc
  subst he
  refine ⟨by simp only [g1]; exact h1, by simp only [g1, g6]; exact h2, ?_⟩
  simp only [g11, g6]
  by_cases hne : seqs = []
  · simp only [hne, if_true]; exact h3
  · have := g7 hne
    have hlen : 0 < seqs.length := List.length_pos.mpr hne
    simp only [hne, if_false]
    right
    rcases h3 with h3 | h3 <;> omega

theorem Reach_TableShape (adm : Simple → Op → Prop) :
    ∀ c, Reach adm c → TableShape c := by
  intro c h
  induction h with
  | fresh capacity c h => exact TableShape_fresh capacity c h
  | step c op c1 _ _ hstep ih =>
    cases op with
    | startForward seqs =>
      rcases applyOp_startForward c c1 seqs hstep with hs | hs
      · exact StartForward_TableShape c c1 seqs hs ih
      · subst hs; exact ih
    | copy src dst b e =>
      simp only [applyOp, Option.some.injEq] at hstep
      rw [← hstep]
      obtain ⟨h1, h2, h3⟩ := ih
      exact ⟨h1, by simp only [Copy, List.length_map]; exact h2,
        by simp only [Copy, List.length_map]; exact h3⟩
    | remove seq b e =>
      simp only [applyOp, Option.some.injEq] at hstep
      rw [← hstep]
      obtain ⟨h1, h2, h3⟩ := ih
      exact ⟨h1, by simp only [Remove, List.length_map]; exact h2,
        by simp only [Remove, List.length_map]; exact h3⟩

theorem StartForward_outcomes (c : Simple) (seqs : List Int) :
    ((findStartPos { c with curBatchSize := seqs.length }).2 = none ∨
      StartForward c seqs = Run.panic Abort.defragNotImplemented ∨
      ∃ c1 e, StartForward c seqs = Run.ret (c1, some e)) := by
  rcases (findStartPos_run { c with curBatchSize := seqs.length }).2.2 with h | h
  · exact Or.inl h
  · right
    by_cases hroom : wrap (c.size + (seqs.length : Int)) ≤ c.Capacity
    · exact Or.inl (StartForward_defrag c seqs h hroom)
    · exact Or.inr ⟨_, _, (StartForward_error c _ seqs _).2 ⟨h, hroom, rfl, rfl⟩⟩

/-- C20: in every state reachable from a cache made by `NewSimpleCache` (which
needs `capacity ≥ 0`) by `StartForward` calls that return, `Copy` and `Remove`
calls,
`maxCell ≤ max(0, Capacity - 1)`; a `StartForward(seqs)` whose allocation
succeeds with offset `start` has every write index `start + i`, `i < len(seqs)`,
inside the table, returns with a nil error, reads only rows below the table
length (`maxCell ≤ len(cells)`) and only batch entries below `len(seqs)`; and no
`StartForward` on such a state panics with an index out of range. -/
theorem StartForward_index_safe (c : Simple) (h : Reach anyCall c) :
    (c.maxCell : Int) ≤ max 0 (c.Capacity - 1) ∧
    (∀ (seqs : List Int) (start : Nat),
      findStartPos { c with curBatchSize := seqs.length } = (start, none) →
      (∀ i, i < seqs.length → start + i < c.cells.length) ∧
      ∃ c1, StartForward c seqs = Run.ret (c1, none) ∧
        c1.maxCell ≤ c1.cells.length ∧ c1.curBatchSize = seqs.length) ∧
    (∀ seqs : List Int, StartForward c seqs ≠ Run.panic Abort.indexOutOfRange) := by
  obtain ⟨h1, h2, h3⟩ := Reach_TableShape anyCall c h
  have hwf : c.maxCell ≤ c.cells.length := by rcases h3 with h3 | h3 <;> omega
  have hsafe : ∀ (seqs : List Int) (start : Nat),
      findStartPos { c with curBatchSize := seqs.length } = (start, none) →
      (∀ i, i < seqs.length → start + i < c.cells.length) ∧
      ∃ c1, StartForward c seqs = Run.ret (c1, none) ∧
        c1.maxCell ≤ c1.cells.length ∧ c1.curBatchSize = seqs.length := by
    intro seqs start hf
    have hrun := (((findStartPos_run _).1 start).1 hf).1
    have hfit : seqs ≠ [] → start + seqs.length ≤ c.cells.length := by
      intro hne
      have hlen : 0 < seqs.length := List.length_pos.mpr hne
      have := hrun.1
      simp only [Nat.max_eq_left hlen] at this
      exact this
    obtain ⟨c2, mask, ha, _, hs⟩ := StartForward_returns c seqs start hwf hf hfit
    have hshape := StartForward_TableShape c _ seqs hs ⟨h1, h2, h3⟩
    obtain ⟨_, _, g3, _, _, _, _, _, _, _, _⟩ := assignLoop_spec seqs 0 _ _ ha
    refine ⟨?_, _, hs, ?_, g3⟩
    · intro i hi
      have := hfit (by intro e; subst e; simp at hi)
      omega
    · have := hshape.2.2
      rcases this with h | h <;> omega
  refine ⟨?_, hsafe, ?_⟩
  · rcases h3 with h3 | h3 <;> omega
  · intro seqs hp
    rcases StartForward_outcomes c seqs with ho | ho | ⟨c1, e, ho⟩
    · have hf : findStartPos { c with curBatchSize := seqs.length }
          = ((findStartPos { c with curBatchSize := seqs.length }).1, none) := by
        rw [← ho]
      obtain ⟨_, c1, hs, _⟩ := hsafe seqs _ hf
      rw [hs] at hp
      exact absurd hp (by simp)
    · rw [ho] at hp
      exact absurd hp (by simp)
    · rw [ho] at hp
      exact absurd hp (by simp)

theorem StartForward_index_safe_witness :
    Reach anyCall trimmed4 ∧
    (trimmed4.maxCell : Int) ≤ max 0 (trimmed4.Capacity - 1) ∧
    findStartPos { trimmed4 with curBatchSize := ([1] : List Int).length } = (0, none) ∧
    (∀ i, i < ([1] : List Int).length → 0 + i < trimmed4.cells.length) ∧
    (∃ c1, StartForward trimmed4 [1] = Run.ret (c1, none) ∧
      c1.maxCell ≤ c1.cells.length ∧ c1.curBatchSize = ([1] : List Int).length) ∧
    StartForward trimmed4 [1, 2] ≠ Run.panic Abort.indexOutOfRange :=
  have hr : Reach anyCall trimmed4 :=
    Reach.step twoSteps4 (Op.remove 1 0 1) trimmed4
      (Reach_twoSteps4 anyCall trivial trivial) trivial (by decide)
  have h := StartForward_index_safe trimmed4 hr
  have hs := h.2.1 [1] 0 (by decide)
  ⟨hr, h.1, by decide, hs.1, hs.2, h.2.2 [1, 2]⟩

/-! ## Contiguous histories -/

theorem SeqMap.total_set (m : List (Int × Int)) (k v : Int) :
    SeqMap.total (SeqMap.set m k v) = SeqMap.total m - SeqMap.get m k + v := by
  induction m with
  | nil => simp [SeqMap.set, SeqMap.total, SeqMap.get]
  | cons a m ih =>
    obtain ⟨a1, a2⟩ := a
    simp only [SeqMap.total] at ih ⊢
    simp only [SeqMap.set, SeqMap.get]
    by_cases h : a1 = k
    · simp only [h, if_true, List.map_cons, List.sum_cons]
      omega
    · simp only [h, if_false, List.map_cons, List.sum_cons, ih]
      omega

theorem SeqMap.keys_set (m : List (Int × Int)) (k v : Int) :
    (SeqMap.set m k v).map Prod.fst
      = if k ∈ m.map Prod.fst then m.map Prod.fst else m.map Prod.fst ++ [k] := by
  induction m with
  | nil => simp [SeqMap.set]
  | cons a m ih =>
    obtain ⟨a1, a2⟩ := a
    simp only [SeqMap.set]
    by_cases h : a1 = k
    · simp [h]
    · have h' : ¬ k = a1 := fun e => h e.symm
      simp only [h, if_false, List.map_cons, ih, List.mem_cons, h', false_or]
      split <;> simp

theorem SeqMap.keys_set_nodup (m : List (Int × Int)) (k v : Int)
    (h : (m.map Prod.fst).Nodup) : ((SeqMap.set m k v).map Prod.fst).Nodup := by
  rw [SeqMap.keys_set]
  split
  · exact h
  · rename_i hk
    rw [List.nodup_append]
    refine ⟨h, by simp, ?_⟩
    intro x hx hx2
    simp only [List.mem_singleton] at hx2
    subst hx2
    exact hk hx

theorem assignLoop_total :
    ∀ (seqs : List Int) (i : Nat) (c c1 : Simple), Contiguous c →
      (c.cells.length : Int) < 9223372036854775808 →
      (∀ j, c.curPos + i ≤ j → j < c.curPos + i + seqs.length →
        (c.cells[j]?).map cacheCell.sequences = some []) →
      assignLoop seqs i c = Run.ret c1 →
      (c.seqNextPos.map Prod.fst).Nodup →
      (c1.seqNextPos.map Prod.fst).Nodup ∧
      c1.size - SeqMap.total c1.seqNextPos = c.size - SeqMap.total c.seqNextPos := by
  intro seqs
  induction seqs with
  | nil =>
    intro i c c1 _ _ _ h hk
    simp only [assignLoop, Run.ret.injEq] at h
    subst h
    exact ⟨hk, rfl⟩
  | cons seq rest ih =>
    intro i c c1 hc hlen hfree h hk
    unfold assignLoop at h
    by_cases hb : c.curPos + i < c.cells.length
    · rw [if_pos hb] at h
      obtain ⟨_, f2, _, _, _, f6, _, _⟩ := assignCell_fields c i seq
      have h0 := hfree (c.curPos + i) (le_refl _) (by simp)
      rw [List.getElem?_eq_getElem hb] at h0
      simp only [Option.map_some', Option.some.injEq] at h0
      obtain ⟨f5, f8⟩ := assignCell_exact c i seq _ hc hlen (List.getElem?_eq_getElem hb) h0
      obtain ⟨k1, k2⟩ := ih (i + 1) _ c1
        (assignCell_Contiguous c i seq _ hc hlen (List.getElem?_eq_getElem hb) h0)
        (by rw [f6, List.length_set]; exact hlen)
        (by
          intro j hj1 hj2
          rw [f2] at hj1 hj2
          rw [f6, List.getElem?_set_ne (by omega)]
          exact hfree j (by omega) (by simp only [List.length_cons]; omega))
        h (by rw [f8]; exact SeqMap.keys_set_nodup _ _ _ hk)
      refine ⟨k1, ?_⟩
      rw [k2, f5, f8, SeqMap.total_set]
      omega
    · rw [if_neg hb] at h
      exact absurd h (by simp)

theorem Reach_size_total (adm : Simple → Op → Prop)
    (hcopy : ∀ c src dst b e, ¬ adm c (Op.copy src dst b e))
    (hrem : ∀ c seq b e, adm c (Op.remove seq b e) →
      0 ≤ b ∧ b ≤ min e (SeqMap.get c.seqNextPos seq)) :
    ∀ c, Reach adm c →
      (c.seqNextPos.map Prod.fst).Nodup ∧ c.size = SeqMap.total c.seqNextPos := by
  intro c h
  induction h with
  | fresh capacity c h =>
    unfold NewSimpleCache at h
    split at h
    · exact absurd h (by simp)
    · simp only [Run.ret.injEq] at h
      subst h
      exact ⟨List.nodup_nil, rfl⟩
  | step c op c1 hreach ha hstep ih =>
    have hcont := Reach_Contiguous adm hcopy hrem c hreach
    have hlen := Reach_cells_length adm c hreach
    cases op with
    | startForward seqs =>
      rcases applyOp_startForward c c1 seqs hstep with hs | hs
      · obtain ⟨start, c2, mask, hf, hloop, _, he⟩ := StartForward_success c c1 seqs hs
        have hrun := (((findStartPos_run _).1 start).1 hf).1
        obtain ⟨k1, k2⟩ := assignLoop_total seqs 0
          { c with curBatchSize := seqs.length, curPos := start } c2 hcont hlen
          (by
            intro j hj1 hj2
            simp only [Nat.add_zero] at hj1 hj2
            have := hrun.2 (j - start) (by simp only []; omega)
            have e1 : start + (j - start) = j := by omega
            rw [e1] at this
            exact this)
          hloop ih.1
        subst he
        refine ⟨k1, ?_⟩
        have := ih.2
        simp only at k2 ⊢
        omega
      · subst hs; exact ih
    | copy src dst b e => exact absurd ha (hcopy c src dst b e)
    | remove seq b e =>
      simp only [applyOp, Option.some.injEq] at hstep
      rw [← hstep]
      obtain ⟨b1, b2, b3⟩ := Contiguous_bounds c hcont seq
      have hnn := hcont.2.1 seq
      obtain ⟨hb, hbe⟩ := hrem c seq b e ha
      have hen : min e (SeqMap.get c.seqNextPos seq) ≤ SeqMap.get c.seqNextPos seq :=
        min_le_right _ _
      obtain ⟨_, hnp, hsize, _, _⟩ := Remove_fields c seq b e
      refine ⟨by rw [hnp]; exact SeqMap.keys_set_nodup _ _ _ ih.1, ?_⟩
      have := ih.2
      rw [hnp, hsize, SeqMap.total_set, wrap_id _ (by omega) (by omega),
        wrap_id _ (by omega) (by omega)]
      omega

theorem occupied_eq_live :
    ∀ (cells : List cacheCell), (∀ cell ∈ cells, cell.sequences.length ≤ 1) →
      (cells.filter (fun cell => decide (cell.sequences ≠ []))).length
        = (cells.map (fun cell => cell.sequences.length)).sum := by
  intro cells
  induction cells with
  | nil => intro _; rfl
  | cons a rest ih =>
    intro h
    have h1 := h a (by simp)
    have h2 := ih (fun cell hc => h cell (by simp [hc]))
    simp only [List.filter_cons, List.map_cons, List.sum_cons]
    by_cases hnil : a.sequences = []
    · simp only [ne_eq, hnil, not_true_eq_false, decide_False, Bool.false_eq_true, if_false,
        List.length_nil, Nat.zero_add]
      exact h2
    · have hpos : 0 < a.sequences.length := List.length_pos.mpr hnil
      simp only [ne_eq, hnil, not_false_eq_true, decide_True, if_true, List.length_cons, h2]
      omega

/-- C18: in every state reachable from a fresh cache by `StartForward` calls
that return (pairwise distinct ids per batch) and `Remove(seq, begin, end)` calls with
`0 ≤ begin ≤ min(end, seqNextPos[seq])`: for every sequence `s` the positions held
for `s` across the cells are exactly `0, …, seqNextPos[s] - 1`, each once; every
cell holds at most one association; and `size` equals the number of occupied
cells, which equals the sum of `seqNextPos` over the sequences of the map (each
sequence having one entry). -/
theorem contiguous_history (c : Simple) (h : Reach distinctStepsAndTrims c) :
    (∀ s, (positionsOf s c.cells).Nodup ∧
      ∀ p, p ∈ positionsOf s c.cells ↔ (0 ≤ p ∧ p < SeqMap.get c.seqNextPos s)) ∧
    (∀ cell ∈ c.cells, cell.sequences.length ≤ 1) ∧
    c.size = (occupiedCells c : Int) ∧
    (occupiedCells c : Int) = SeqMap.total c.seqNextPos ∧
    (c.seqNextPos.map Prod.fst).Nodup := by
  obtain ⟨h1, _, h3, h4⟩ := Reach_Contiguous distinctStepsAndTrims (fun _ _ _ _ _ ha => ha)
    (fun _ _ _ _ ha => ha) c h
  obtain ⟨k1, k2⟩ := Reach_size_total distinctStepsAndTrims (fun _ _ _ _ _ ha => ha)
    (fun _ _ _ _ ha => ha) c h
  have hocc : occupiedCells c = liveAssociations c := occupied_eq_live c.cells h1
  refine ⟨h3, h1, ?_, ?_, k1⟩
  · rw [hocc]; exact h4
  · rw [hocc, ← h4]; exact k2

theorem contiguous_history_witness :
    Reach distinctStepsAndTrims reused4 ∧
    positionsOf 1 reused4.cells = [1, 0] ∧ SeqMap.get reused4.seqNextPos 1 = 2 ∧
    reused4.size = 4 ∧ occupiedCells reused4 = 4 ∧ SeqMap.total reused4.seqNextPos = 4 ∧
    (∀ s, (positionsOf s reused4.cells).Nodup ∧
      ∀ p, p ∈ positionsOf s reused4.cells ↔ (0 ≤ p ∧ p < SeqMap.get reused4.seqNextPos s)) ∧
    reused4.size = (occupiedCells reused4 : Int) ∧
    (occupiedCells reused4 : Int) = SeqMap.total reused4.seqNextPos :=
  have hr : Reach distinctStepsAndTrims reused4 :=
    Reach.step trimmed4 (Op.startForward [1]) reused4
      (Reach.step twoSteps4 (Op.remove 1 0 1) trimmed4
        (Reach_twoSteps4 distinctStepsAndTrims (by show ([1, 2] : List Int).Nodup; decide)
          (by show ([1, 2] : List Int).Nodup; decide))
        (by show (0 : Int) ≤ 0 ∧ (0 : Int) ≤ min 1 (SeqMap.get twoSteps4.seqNextPos 1); decide)
        (by decide))
      (by show ([1] : List Int).Nodup; decide) (by decide)
  have h := contiguous_history reused4 hr
  ⟨hr, by decide, by decide, by decide, by decide, by decide, h.1, h.2.2.1, h.2.2.2.1⟩

end Cache
